import Mathlib

/-!
Verification development for the maze-generator repository core.

The JavaScript source keeps the maze in a plain object whose keys are the
strings `"x,y"` (produced by coercing the array `[x, y]`) and whose values are
wall records.  Integer pairs correspond bijectively to those key strings
(`getNumericalCoordinates` is the inverse of the coercion), so cells are
modelled as `Int × Int`.  JS objects with such non-index string keys enumerate
their properties in insertion order: property assignment on a fresh key
appends, assignment on an existing key keeps its position, and `delete`
removes the key leaving the order of the others unchanged.  Objects are
therefore modelled as insertion-ordered association lists with the three
operations `objGet`, `objSet`, `objDelete` below.
-/

/-- Cell coordinate `(x, y)`: `x` indexes columns, `y` indexes rows.
JS stores the key string `"x,y"`; `getNumericalCoordinates` parses it back,
so the pair itself is the faithful model of a key. -/
abbrev Cell := Int × Int

/-- The four wall booleans of one cell (`true` = wall present / impassable),
as stored by `populateGrid` in part_001 and mutated by `removeWall`. -/
structure Walls where
  top : Bool
  bottom : Bool
  left : Bool
  right : Bool
deriving DecidableEq, Repr

/-- The wall record `{ top: true, bottom: true, left: true, right: true }`
that `populateGrid` assigns to every cell. -/
def allWalls : Walls := ⟨true, true, true, true⟩

/-- The grid object: keys are cells, values are wall records. -/
abbrev Grid := List (Cell × Walls)

/-- A solver search node (`solveMaze.js` lines 21-26 and 50-58):
parent coordinate, cost from the start, heuristic cost, and their sum. -/
structure Node where
  parent : Cell
  moveCost : Nat
  distCost : Nat
  totalCost : Nat
deriving DecidableEq, Repr

/-- The open/closed dictionaries of the solver: cell-keyed JS objects. -/
abbrev NodeMap := List (Cell × Node)

/-- JS property read `m[k]`: the value at the first (in a well-formed object,
only) entry with key `k`, or `undefined` (`none`). -/
def objGet {α : Type} (m : List (Cell × α)) (k : Cell) : Option α :=
  (m.find? (fun e => e.1 == k)).map (·.2)

/-- JS property write `m[k] = v`: overwrite in place when the key exists
(keeping its enumeration position), otherwise append. -/
def objSet {α : Type} (m : List (Cell × α)) (k : Cell) (v : α) : List (Cell × α) :=
  if m.any (fun e => e.1 == k) then
    m.map (fun e => if e.1 == k then (e.1, v) else e)
  else
    m ++ [(k, v)]

/-- JS `delete m[k]`: remove the key, preserving the order of the rest. -/
def objDelete {α : Type} (m : List (Cell × α)) (k : Cell) : List (Cell × α) :=
  m.filter (fun e => !(e.1 == k))

/-- The keys of an object in enumeration order (JS `Object.keys`). -/
def objKeys {α : Type} (m : List (Cell × α)) : List Cell :=
  m.map (·.1)

/-- A JS object never holds two entries for the same key. -/
def NodupKeys {α : Type} (m : List (Cell × α)) : Prop :=
  (objKeys m).Nodup

/-! ### Lemmas about the object operations -/

theorem objGet_eq_none_iff {α : Type} (m : List (Cell × α)) (k : Cell) :
    objGet m k = none ↔ ∀ v, (k, v) ∉ m := by
  unfold objGet
  rw [Option.map_eq_none', List.find?_eq_none]
  constructor
  · intro hall v hv
    have := hall (k, v) hv
    simp at this
  · intro hall e he hk
    have hk1 : e.1 = k := by simpa using hk
    exact hall e.2 (by cases e; simp_all)

theorem mem_of_objGet_eq_some {α : Type} {m : List (Cell × α)} {k : Cell} {v : α}
    (h : objGet m k = some v) : (k, v) ∈ m := by
  unfold objGet at h
  rcases ho : m.find? (fun e => e.1 == k) with _ | e
  · rw [ho] at h; simp at h
  · rw [ho] at h
    have hmem := List.mem_of_find?_eq_some ho
    have hkey : e.1 = k := by
      have := List.find?_some ho
      simpa using this
    have hval : e.2 = v := by simpa using h
    have : e = (k, v) := by
      cases e; simp_all
    exact this ▸ hmem

theorem objGet_eq_some_of_mem {α : Type} {m : List (Cell × α)} {k : Cell} {v : α}
    (hnd : NodupKeys m) (h : (k, v) ∈ m) : objGet m k = some v := by
  induction m with
  | nil => simp at h
  | cons e rest ih =>
    unfold NodupKeys objKeys at hnd
    simp only [List.map_cons, List.nodup_cons] at hnd
    rcases List.mem_cons.mp h with h1 | h1
    · subst h1
      unfold objGet
      simp
    · have hne : e.1 ≠ k := by
        intro hk
        exact hnd.1 (hk ▸ (List.mem_map.mpr ⟨(k, v), h1, rfl⟩))
      unfold objGet
      simp only [List.find?_cons]
      have hb : (e.1 == k) = false := by simpa using hne
      rw [hb]
      exact ih hnd.2 h1

theorem objGet_objSet_self {α : Type} (m : List (Cell × α)) (k : Cell) (v : α) :
    objGet (objSet m k v) k = some v := by
  unfold objSet
  by_cases h : m.any (fun e => e.1 == k)
  · rw [if_pos h]
    unfold objGet
    induction m with
    | nil => simp at h
    | cons e rest ih =>
      by_cases he : e.1 = k
      · simp [he]
      · have hb : (e.1 == k) = false := by simpa using he
        simp only [List.map_cons, hb, if_neg he, List.find?_cons]
        rw [List.any_cons, hb] at h
        simp only [Bool.false_or] at h
        simpa [hb] using ih h
  · rw [if_neg h]
    unfold objGet
    rw [List.find?_append]
    have hnone : m.find? (fun e => e.1 == k) = none := by
      rw [List.find?_eq_none]
      intro x hx hk
      exact h (List.any_eq_true.mpr ⟨x, hx, hk⟩)
    rw [hnone]
    simp


theorem objGet_map_update {α : Type} (m : List (Cell × α)) (k k2 : Cell) (v : α)
    (hne : k2 ≠ k) :
    objGet (m.map (fun e => if e.1 == k then (e.1, v) else e)) k2 = objGet m k2 := by
  induction m with
  | nil => rfl
  | cons e rest ih =>
    unfold objGet at ih ⊢
    simp only [List.map_cons, List.find?_cons]
    by_cases he : e.1 = k
    · have h2 : (e.1 == k2) = false := by
        simp only [beq_eq_false_iff_ne, ne_eq]
        intro hc
        exact hne (hc ▸ he)
      have hif : (if (e.1 == k) = true then (e.1, v) else e) = (e.1, v) := by
        simp [he]
      rw [hif]
      simp only [h2]
      exact ih
    · have hif : (if (e.1 == k) = true then (e.1, v) else e) = e := by
        simp [he]
      rw [hif]
      by_cases he2 : e.1 = k2
      · simp [he2]
      · have h2 : (e.1 == k2) = false := by simpa using he2
        simp only [h2]
        exact ih

theorem objGet_objSet_ne {α : Type} (m : List (Cell × α)) (k k2 : Cell) (v : α)
    (hne : k2 ≠ k) : objGet (objSet m k v) k2 = objGet m k2 := by
  unfold objSet
  by_cases h : m.any (fun e => e.1 == k)
  · rw [if_pos h]
    exact objGet_map_update m k k2 v hne
  · rw [if_neg h]
    unfold objGet
    rw [List.find?_append]
    have hone : [(k, v)].find? (fun e => e.1 == k2) = none := by
      simp only [List.find?_singleton]
      have : ((k, v).1 == k2) = false := by
        simpa using fun hc => hne hc.symm
      simp [this]
    rw [hone]
    simp

theorem objGet_objDelete {α : Type} (m : List (Cell × α)) (k k2 : Cell) :
    objGet (objDelete m k) k2 = if k2 = k then none else objGet m k2 := by
  unfold objDelete objGet
  by_cases h : k2 = k
  · subst h
    rw [if_pos rfl, Option.map_eq_none', List.find?_eq_none]
    intro x hx
    have := (List.mem_filter.mp hx).2
    simp only [Bool.not_eq_true', beq_eq_false_iff_ne, ne_eq] at this
    simpa using this
  · rw [if_neg h]
    induction m with
    | nil => rfl
    | cons e rest ih =>
      by_cases he : e.1 = k
      · have hb1 : (!(e.1 == k)) = false := by simp [he]
        have hb2 : (e.1 == k2) = false := by
          simp only [beq_eq_false_iff_ne, ne_eq]
          intro hc
          exact h ((hc ▸ he : k2 = k))
        simp only [List.filter_cons, hb1, List.find?_cons, hb2, if_false]
        exact ih
      · have hb1 : (!(e.1 == k)) = true := by simpa using he
        simp only [List.filter_cons, hb1, if_true, List.find?_cons]
        by_cases he2 : e.1 = k2
        · simp [he2]
        · have hb2 : (e.1 == k2) = false := by simpa using he2
          simp only [hb2]
          exact ih

theorem mem_objKeys_iff {α : Type} (m : List (Cell × α)) (k : Cell) :
    k ∈ objKeys m ↔ ∃ v, (k, v) ∈ m := by
  unfold objKeys
  constructor
  · intro h
    rcases List.mem_map.mp h with ⟨e, he, hk⟩
    exact ⟨e.2, by cases e; simp_all⟩
  · rintro ⟨v, hv⟩
    exact List.mem_map.mpr ⟨(k, v), hv, rfl⟩

theorem objGet_eq_none_iff_keys {α : Type} (m : List (Cell × α)) (k : Cell) :
    objGet m k = none ↔ k ∉ objKeys m := by
  rw [objGet_eq_none_iff, mem_objKeys_iff]
  push_neg
  rfl

theorem objGet_isSome_of_mem_keys {α : Type} {m : List (Cell × α)} {k : Cell}
    (h : k ∈ objKeys m) : ∃ v, objGet m k = some v := by
  rcases ho : objGet m k with _ | v
  · exact absurd h ((objGet_eq_none_iff_keys m k).mp ho)
  · exact ⟨v, rfl⟩

theorem objKeys_objSet_of_mem {α : Type} (m : List (Cell × α)) (k : Cell) (v : α)
    (h : m.any (fun e => e.1 == k)) : objKeys (objSet m k v) = objKeys m := by
  unfold objSet objKeys
  rw [if_pos h, List.map_map]
  congr 1
  funext e
  by_cases he : e.1 = k <;> simp [he]

theorem objKeys_objSet_of_not_mem {α : Type} (m : List (Cell × α)) (k : Cell) (v : α)
    (h : ¬ m.any (fun e => e.1 == k)) : objKeys (objSet m k v) = objKeys m ++ [k] := by
  unfold objSet objKeys
  rw [if_neg h]
  simp

theorem any_key_iff_mem_keys {α : Type} (m : List (Cell × α)) (k : Cell) :
    m.any (fun e => e.1 == k) = true ↔ k ∈ objKeys m := by
  rw [List.any_eq_true, mem_objKeys_iff]
  constructor
  · rintro ⟨e, he, hk⟩
    exact ⟨e.2, by cases e; simp_all⟩
  · rintro ⟨v, hv⟩
    exact ⟨(k, v), hv, by simp⟩

theorem mem_objKeys_objSet {α : Type} (m : List (Cell × α)) (k x : Cell) (v : α) :
    x ∈ objKeys (objSet m k v) ↔ x ∈ objKeys m ∨ x = k := by
  by_cases h : m.any (fun e => e.1 == k)
  · rw [objKeys_objSet_of_mem m k v h]
    constructor
    · exact Or.inl
    · rintro (hx | hx)
      · exact hx
      · exact hx ▸ (any_key_iff_mem_keys m k).mp h
  · rw [objKeys_objSet_of_not_mem m k v h]
    simp

theorem nodupKeys_objSet {α : Type} (m : List (Cell × α)) (k : Cell) (v : α)
    (hnd : NodupKeys m) : NodupKeys (objSet m k v) := by
  unfold NodupKeys
  by_cases h : m.any (fun e => e.1 == k)
  · rw [objKeys_objSet_of_mem m k v h]
    exact hnd
  · rw [objKeys_objSet_of_not_mem m k v h]
    rw [List.nodup_append]
    refine ⟨hnd, List.nodup_singleton k, ?_⟩
    intro x hx hk
    rw [List.mem_singleton] at hk
    subst hk
    exact h ((any_key_iff_mem_keys m x).mpr hx)

theorem objKeys_objDelete_sublist {α : Type} (m : List (Cell × α)) (k : Cell) :
    (objKeys (objDelete m k)).Sublist (objKeys m) := by
  unfold objKeys objDelete
  exact List.Sublist.map _ (List.filter_sublist m)

theorem nodupKeys_objDelete {α : Type} (m : List (Cell × α)) (k : Cell)
    (hnd : NodupKeys m) : NodupKeys (objDelete m k) :=
  List.Nodup.sublist (objKeys_objDelete_sublist m k) hnd

theorem mem_objKeys_objDelete {α : Type} (m : List (Cell × α)) (k x : Cell) :
    x ∈ objKeys (objDelete m k) ↔ x ∈ objKeys m ∧ x ≠ k := by
  unfold objKeys objDelete
  constructor
  · intro hx
    rcases List.mem_map.mp hx with ⟨e, he, hk⟩
    have hf := List.mem_filter.mp he
    refine ⟨List.mem_map.mpr ⟨e, hf.1, hk⟩, ?_⟩
    have := hf.2
    simp only [Bool.not_eq_true', beq_eq_false_iff_ne, ne_eq] at this
    exact hk ▸ this
  · rintro ⟨hx, hne⟩
    rcases List.mem_map.mp hx with ⟨e, he, hk⟩
    refine List.mem_map.mpr ⟨e, List.mem_filter.mpr ⟨he, ?_⟩, hk⟩
    subst hk
    simpa using hne

/-! ### Grid construction (`populateGrid`, src/unnamed/part_001 lines 88-95)

`populateGrid(_gridHeight, _gridWidth)` starts from the empty object and
assigns `grid[[i, j]] = { top: true, bottom: true, left: true, right: true }`
for `0 ≤ i < _gridWidth` (outer loop) and `0 ≤ j < _gridHeight` (inner loop).
A `for (let i = 0; i < n; i++)` loop with an integer bound `n ≤ 0` runs zero
iterations, so nonpositive dimensions yield the empty object. -/

def populateGrid (_gridHeight _gridWidth : Int) : Grid :=
  (List.range _gridWidth.toNat).flatMap (fun i =>
    (List.range _gridHeight.toNat).map (fun j => ((Int.ofNat i, Int.ofNat j), allWalls)))

theorem mem_populateGrid (h w : Int) (e : Cell × Walls) :
    e ∈ populateGrid h w ↔
      e.2 = allWalls ∧ 0 ≤ e.1.1 ∧ e.1.1 < w ∧ 0 ≤ e.1.2 ∧ e.1.2 < h := by
  unfold populateGrid
  rw [List.mem_flatMap]
  simp only [List.mem_map, List.mem_range, Int.ofNat_eq_coe]
  constructor
  · rintro ⟨i, hi, j, hj, he⟩
    subst he
    dsimp only
    refine ⟨rfl, ?_, ?_, ?_, ?_⟩ <;> omega
  · rintro ⟨hv, hx0, hxw, hy0, hyh⟩
    refine ⟨e.1.1.toNat, by omega, e.1.2.toNat, by omega, ?_⟩
    have h1 : ((e.1.1.toNat : Int)) = e.1.1 := Int.toNat_of_nonneg hx0
    have h2 : ((e.1.2.toNat : Int)) = e.1.2 := Int.toNat_of_nonneg hy0
    rw [h1, h2, ← hv]

theorem objGet_populateGrid (h w : Int) (c : Cell) :
    objGet (populateGrid h w) c =
      if 0 ≤ c.1 ∧ c.1 < w ∧ 0 ≤ c.2 ∧ c.2 < h then some allWalls else none := by
  by_cases hc : 0 ≤ c.1 ∧ c.1 < w ∧ 0 ≤ c.2 ∧ c.2 < h
  · rw [if_pos hc]
    have hmem : (c, allWalls) ∈ populateGrid h w := by
      rw [mem_populateGrid]
      exact ⟨rfl, hc.1, hc.2.1, hc.2.2.1, hc.2.2.2⟩
    have hsome : (List.find? (fun e => e.1 == c) (populateGrid h w)).isSome := by
      apply List.find?_isSome.mpr
      exact ⟨(c, allWalls), hmem, by simp⟩
    rcases ho : List.find? (fun e => e.1 == c) (populateGrid h w) with _ | e
    · rw [ho] at hsome; simp at hsome
    · have he1 : e.1 = c := by simpa using List.find?_some ho
      have he2 : e.2 = allWalls := ((mem_populateGrid h w e).mp (List.mem_of_find?_eq_some ho)).1
      unfold objGet
      rw [ho]
      simp [he2]
  · rw [if_neg hc]
    rw [objGet_eq_none_iff]
    intro v hv
    have := (mem_populateGrid h w (c, v)).mp hv
    exact hc ⟨this.2.1, this.2.2.1, this.2.2.2.1, this.2.2.2.2⟩

theorem populateGrid_nonpos (h w : Int) (hle : w ≤ 0 ∨ h ≤ 0) :
    populateGrid h w = [] := by
  unfold populateGrid
  rcases hle with hle | hle
  · have : w.toNat = 0 := by omega
    rw [this]
    rfl
  · have : h.toNat = 0 := by omega
    rw [this]
    apply List.eq_nil_iff_forall_not_mem.mpr
    intro e he
    rcases List.mem_flatMap.mp he with ⟨i, _, hmem⟩
    simp at hmem

/-! ### Maze generation (src/unnamed/part_002) -/

/-- The wall names `"top" | "bottom" | "left" | "right"` used as property
keys by `removeWall`. -/
inductive WallSide where
  | top
  | bottom
  | left
  | right
deriving DecidableEq, Repr

/-- JS `walls[side] = false` on a wall record. -/
def setWallFalse (ws : Walls) : WallSide → Walls
  | .top => { ws with top := false }
  | .bottom => { ws with bottom := false }
  | .left => { ws with left := false }
  | .right => { ws with right := false }


/-- The update `removeWall` applies to a single grid entry: clear wall `w`
when the entry's key is `c`, otherwise leave the entry alone. -/
def updOne (c : Cell) (w : WallSide) (e : Cell × Walls) : Cell × Walls :=
  if e.1 = c then (e.1, setWallFalse e.2 w) else e

/-- JS `_grid[cell][side] = false`: clears one wall of an existing cell.
(`removeWall` only ever addresses cells present in the grid; on an absent
cell the JS would throw, and the model leaves the grid unchanged.) -/
def gridSetWallFalse (grid : Grid) (c : Cell) (w : WallSide) : Grid :=
  grid.map (updOne c w)

/-- The `directionDictionary` of `removeWall` (part_002 lines 14-19): movement
vector to the (near-side, far-side) wall pair. -/
def directionDictionary (d : Cell) : Option (WallSide × WallSide) :=
  if d = ((0 : Int), (-1 : Int)) then some (.top, .bottom)
  else if d = ((0 : Int), (1 : Int)) then some (.bottom, .top)
  else if d = ((1 : Int), (0 : Int)) then some (.right, .left)
  else if d = ((-1 : Int), (0 : Int)) then some (.left, .right)
  else none

/-- The function `removeWall(_grid, cellFrom, cellTo)` (part_002 lines 9-27): clears the
wall of `cellFrom` facing `cellTo` and the wall of `cellTo` facing
`cellFrom`.  On non-adjacent cells the JS dictionary lookup yields
`undefined` and the subsequent property access throws (fail fast); that
branch is modelled as the identity and is never reached by `generateMaze`,
which always passes 4-adjacent cells. -/
def removeWall (_grid : Grid) (cellFrom cellTo : Cell) : Grid :=
  let directionResult : Cell := (cellTo.1 - cellFrom.1, cellTo.2 - cellFrom.2)
  match directionDictionary directionResult with
  | some walls =>
      gridSetWallFalse (gridSetWallFalse _grid cellFrom walls.1) cellTo walls.2
  | none => _grid

theorem updOne_right_left (p q : Cell) (e : Cell × Walls) :
    updOne q .left (updOne p .right e)
      = (e.1, ⟨e.2.top, e.2.bottom,
          if e.1 = q then false else e.2.left,
          if e.1 = p then false else e.2.right⟩) := by
  obtain ⟨k, t, b, l, r⟩ := e
  unfold updOne setWallFalse
  by_cases h1 : k = p
  · subst h1
    by_cases h2 : k = q
    · subst h2
      simp
    · simp [h2]
  · by_cases h2 : k = q
    · subst h2
      simp [h1]
    · simp [h1, h2]

theorem updOne_bottom_top (p q : Cell) (e : Cell × Walls) :
    updOne q .top (updOne p .bottom e)
      = (e.1, ⟨if e.1 = q then false else e.2.top,
          if e.1 = p then false else e.2.bottom,
          e.2.left, e.2.right⟩) := by
  obtain ⟨k, t, b, l, r⟩ := e
  unfold updOne setWallFalse
  by_cases h1 : k = p
  · subst h1
    by_cases h2 : k = q
    · subst h2
      simp
    · simp [h2]
  · by_cases h2 : k = q
    · subst h2
      simp [h1]
    · simp [h1, h2]

/-- The wall-symmetry invariant (spec §3): for any two adjacent cells both
present in the grid, the two booleans describing their shared wall agree.
Stated over the entries of the grid object so that it is decidable on
concrete grids; the horizontal (right/left) and vertical (bottom/top)
conditions cover both orientations of each adjacent pair. -/
def SymGrid (grid : Grid) : Prop :=
  ∀ ea ∈ grid, ∀ eb ∈ grid,
    (eb.1 = (ea.1.1 + 1, ea.1.2) → ea.2.right = eb.2.left) ∧
    (eb.1 = (ea.1.1, ea.1.2 + 1) → ea.2.bottom = eb.2.top)

instance (grid : Grid) : Decidable (SymGrid grid) := by
  unfold SymGrid
  infer_instance

theorem symGrid_openH (grid : Grid) (p : Cell) (hsym : SymGrid grid) :
    SymGrid (gridSetWallFalse (gridSetWallFalse grid p .right) (p.1 + 1, p.2) .left) := by
  intro ea2 hea2 eb2 heb2
  unfold gridSetWallFalse at hea2 heb2
  rw [List.map_map] at hea2 heb2
  rcases List.mem_map.mp hea2 with ⟨ea, hea, hfa⟩
  rcases List.mem_map.mp heb2 with ⟨eb, heb, hfb⟩
  rw [Function.comp_apply, updOne_right_left] at hfa hfb
  subst hfa
  subst hfb
  dsimp only
  have hmain := hsym ea hea eb heb
  refine ⟨?_, fun hkey => hmain.2 hkey⟩
  intro hkey
  by_cases h1 : ea.1 = p
  · have hb : eb.1 = (p.1 + 1, p.2) := by rw [hkey, h1]
    rw [if_pos h1, if_pos hb]
  · have hb : eb.1 ≠ (p.1 + 1, p.2) := by
      intro hc
      apply h1
      have e1 : eb.1.1 = ea.1.1 + 1 := by rw [hkey]
      have e2 : eb.1.2 = ea.1.2 := by rw [hkey]
      have e3 : eb.1.1 = p.1 + 1 := by rw [hc]
      have e4 : eb.1.2 = p.2 := by rw [hc]
      have h5 : ea.1.1 = p.1 := by omega
      have h6 : ea.1.2 = p.2 := by omega
      exact Prod.ext h5 h6
    rw [if_neg h1, if_neg hb]
    exact hmain.1 hkey

theorem symGrid_openV (grid : Grid) (p : Cell) (hsym : SymGrid grid) :
    SymGrid (gridSetWallFalse (gridSetWallFalse grid p .bottom) (p.1, p.2 + 1) .top) := by
  intro ea2 hea2 eb2 heb2
  unfold gridSetWallFalse at hea2 heb2
  rw [List.map_map] at hea2 heb2
  rcases List.mem_map.mp hea2 with ⟨ea, hea, hfa⟩
  rcases List.mem_map.mp heb2 with ⟨eb, heb, hfb⟩
  rw [Function.comp_apply, updOne_bottom_top] at hfa hfb
  subst hfa
  subst hfb
  dsimp only
  have hmain := hsym ea hea eb heb
  refine ⟨fun hkey => hmain.1 hkey, ?_⟩
  intro hkey
  by_cases h1 : ea.1 = p
  · have hb : eb.1 = (p.1, p.2 + 1) := by rw [hkey, h1]
    rw [if_pos h1, if_pos hb]
  · have hb : eb.1 ≠ (p.1, p.2 + 1) := by
      intro hc
      apply h1
      have e1 : eb.1.1 = ea.1.1 := by rw [hkey]
      have e2 : eb.1.2 = ea.1.2 + 1 := by rw [hkey]
      have e3 : eb.1.1 = p.1 := by rw [hc]
      have e4 : eb.1.2 = p.2 + 1 := by rw [hc]
      have h5 : ea.1.1 = p.1 := by omega
      have h6 : ea.1.2 = p.2 := by omega
      exact Prod.ext h5 h6
    rw [if_neg h1, if_neg hb]
    exact hmain.2 hkey

theorem gridSetWallFalse_comm (grid : Grid) (c d : Cell) (wc wd : WallSide)
    (hne : c ≠ d) :
    gridSetWallFalse (gridSetWallFalse grid c wc) d wd
      = gridSetWallFalse (gridSetWallFalse grid d wd) c wc := by
  unfold gridSetWallFalse
  rw [List.map_map, List.map_map]
  congr 1
  funext e
  obtain ⟨k, ws⟩ := e
  unfold updOne
  by_cases hc : k = c
  · subst hc
    simp [hne]
  · by_cases hd : k = d
    · subst hd
      simp [hc]
    · simp [hc, hd]

/-- The four movement vectors of the direction dictionary. -/
def unitDirections : List Cell :=
  [((0 : Int), (-1 : Int)), ((0 : Int), (1 : Int)),
   ((1 : Int), (0 : Int)), ((-1 : Int), (0 : Int))]

theorem symGrid_removeWall (grid : Grid) (a b : Cell)
    (hadj : ((b.1 - a.1, b.2 - a.2) : Cell) ∈ unitDirections)
    (hsym : SymGrid grid) : SymGrid (removeWall grid a b) := by
  unfold unitDirections at hadj
  unfold removeWall
  dsimp only
  simp only [List.mem_cons, List.mem_singleton, List.not_mem_nil, or_false] at hadj
  rcases hadj with h | h | h | h
  · have h1 : b.1 - a.1 = 0 := by
      have := congrArg Prod.fst h
      simpa using this
    have h2 : b.2 - a.2 = -1 := by
      have := congrArg Prod.snd h
      simpa using this
    rw [h]
    rw [show directionDictionary ((0 : Int), (-1 : Int))
          = some (WallSide.top, WallSide.bottom) from rfl]
    dsimp only
    have hne2 : a ≠ b := by
      intro hc
      rw [hc] at h2
      omega
    rw [gridSetWallFalse_comm grid a b .top .bottom hne2]
    have hab : a = (b.1, b.2 + 1) := by
      have e1 : a.1 = b.1 := by omega
      have e2 : a.2 = b.2 + 1 := by omega
      exact Prod.ext e1 e2
    rw [hab]
    exact symGrid_openV grid b hsym
  · have h1 : b.1 - a.1 = 0 := by
      have := congrArg Prod.fst h
      simpa using this
    have h2 : b.2 - a.2 = 1 := by
      have := congrArg Prod.snd h
      simpa using this
    rw [h]
    rw [show directionDictionary ((0 : Int), (1 : Int))
          = some (WallSide.bottom, WallSide.top) from rfl]
    dsimp only
    have hab : b = (a.1, a.2 + 1) := by
      have e1 : b.1 = a.1 := by omega
      have e2 : b.2 = a.2 + 1 := by omega
      exact Prod.ext e1 e2
    rw [hab]
    exact symGrid_openV grid a hsym
  · have h1 : b.1 - a.1 = 1 := by
      have := congrArg Prod.fst h
      simpa using this
    have h2 : b.2 - a.2 = 0 := by
      have := congrArg Prod.snd h
      simpa using this
    rw [h]
    rw [show directionDictionary ((1 : Int), (0 : Int))
          = some (WallSide.right, WallSide.left) from rfl]
    dsimp only
    have hab : b = (a.1 + 1, a.2) := by
      have e1 : b.1 = a.1 + 1 := by omega
      have e2 : b.2 = a.2 := by omega
      exact Prod.ext e1 e2
    rw [hab]
    exact symGrid_openH grid a hsym
  · have h1 : b.1 - a.1 = -1 := by
      have := congrArg Prod.fst h
      simpa using this
    have h2 : b.2 - a.2 = 0 := by
      have := congrArg Prod.snd h
      simpa using this
    rw [h]
    rw [show directionDictionary ((-1 : Int), (0 : Int))
          = some (WallSide.left, WallSide.right) from rfl]
    dsimp only
    have hne2 : a ≠ b := by
      intro hc
      rw [hc] at h1
      omega
    rw [gridSetWallFalse_comm grid a b .left .right hne2]
    have hab : a = (b.1 + 1, b.2) := by
      have e1 : a.1 = b.1 + 1 := by omega
      have e2 : a.2 = b.2 := by omega
      exact Prod.ext e1 e2
    rw [hab]
    exact symGrid_openH grid b hsym

/-- The candidate list built by `getRandomNeighbour` (part_002 lines 38-77)
in its push order right, left, down, up: 4-neighbours that are present in
the grid (`_grid[[x, y]]` is truthy) and whose key string is not in the
visited set. -/
def getRandomNeighbourCandidates (current : Cell) (_grid : Grid)
    (visited : List Cell) : List Cell :=
  (if (objGet _grid (current.1 + 1, current.2)).isSome ∧
      (current.1 + 1, current.2) ∉ visited
   then [(current.1 + 1, current.2)] else []) ++
  (if (objGet _grid (current.1 - 1, current.2)).isSome ∧
      (current.1 - 1, current.2) ∉ visited
   then [(current.1 - 1, current.2)] else []) ++
  (if (objGet _grid (current.1, current.2 + 1)).isSome ∧
      (current.1, current.2 + 1) ∉ visited
   then [(current.1, current.2 + 1)] else []) ++
  (if (objGet _grid (current.1, current.2 - 1)).isSome ∧
      (current.1, current.2 - 1) ∉ visited
   then [(current.1, current.2 - 1)] else [])

/-- The function `getRandomNeighbour` (part_002 lines 38-77).  The uniform random draw
`Math.floor(Math.random() * length)` — an arbitrary index below `length` —
is modelled by the oracle value `r` reduced modulo the candidate count, so
every possible draw corresponds to some oracle value.  Returns `null`
(`none`) when no candidate exists, in which case the source consumes no
random number. -/
def getRandomNeighbour (current : Cell) (_grid : Grid) (visited : List Cell)
    (r : Nat) : Option Cell :=
  let validNeighbours := getRandomNeighbourCandidates current _grid visited
  match validNeighbours with
  | [] => none
  | v :: vs => some ((v :: vs).get ⟨r % (vs.length + 1), Nat.mod_lt _ (Nat.succ_pos _)⟩)

/-- The `while` loop of `generateMaze` (part_002 lines 92-111): pop the top
of the stack; if it has an unvisited in-grid neighbour, push it back, open
the wall to a randomly chosen such neighbour, mark the neighbour visited and
push it.  `fuel` bounds the iteration count; `generateMaze` supplies enough
for the loop to empty its stack (the measure `2·(number of unvisited grid
cells) + stack length` strictly drops every iteration).  One oracle value is
consumed per iteration that draws a random number, exactly as the source
calls `Math.random()` only when `validNeighbours.length` is non-zero. -/
def generateMazeAux : Nat → Grid → List Nat → List Cell → List Cell → Grid
  | 0, _grid, _, _, _ => _grid
  | _ + 1, _grid, _, [], _ => _grid
  | fuel + 1, _grid, rands, current :: stackRest, visited =>
    match getRandomNeighbour current _grid visited (rands.headD 0) with
    | none => generateMazeAux fuel _grid rands stackRest visited
    | some chosenNeighbour =>
        generateMazeAux fuel (removeWall _grid current chosenNeighbour) rands.tail
          (chosenNeighbour :: current :: stackRest) (chosenNeighbour :: visited)

/-- The generator `generateMaze(_grid)` (part_002 lines 86-112), with the random stream as
an explicit oracle.  The initial stack holds the start cell `(0,0)`.  The
initial visited set in the source is `new Set(`${current[0]},${current[1]}`)`:
the `Set` constructor iterates the STRING `"0,0"` and yields the set of its
characters `{"0", ","}`.  Every later membership test is on a full key
string `"x,y"` (length at least 3), which never equals `"0"` or `","`, so as
a set of cell keys the initial visited set is empty; it is modelled by the
empty list.  In particular the start cell is never marked visited. -/
def generateMaze (rands : List Nat) (_grid : Grid) : Grid :=
  generateMazeAux (2 * _grid.length + 2) _grid rands [((0 : Int), (0 : Int))] []

theorem mem_ite_singleton {P : Prop} [Decidable P] {c x : Cell}
    (h : c ∈ (if P then [x] else [])) : c = x := by
  split at h
  · simpa using h
  · simp at h

theorem candidates_diff_mem (current : Cell) (_grid : Grid) (visited : List Cell)
    (c : Cell) (h : c ∈ getRandomNeighbourCandidates current _grid visited) :
    ((c.1 - current.1, c.2 - current.2) : Cell) ∈ unitDirections := by
  unfold getRandomNeighbourCandidates at h
  simp only [List.mem_append] at h
  rcases h with ((h | h) | h) | h
  all_goals rw [mem_ite_singleton h]
  all_goals simp [unitDirections]

theorem getRandomNeighbour_mem {current : Cell} {_grid : Grid}
    {visited : List Cell} {r : Nat} {c : Cell}
    (h : getRandomNeighbour current _grid visited r = some c) :
    c ∈ getRandomNeighbourCandidates current _grid visited := by
  unfold getRandomNeighbour at h
  cases hc : getRandomNeighbourCandidates current _grid visited with
  | nil =>
    rw [hc] at h
    simp at h
  | cons v vs =>
    rw [hc] at h
    simp only [Option.some.injEq] at h
    exact h ▸ List.get_mem _ _ _

theorem symGrid_generateMazeAux (fuel : Nat) : ∀ (grid : Grid) (rands : List Nat)
    (stack visited : List Cell), SymGrid grid →
    SymGrid (generateMazeAux fuel grid rands stack visited) := by
  induction fuel with
  | zero =>
    intro grid rands stack visited h
    exact h
  | succ n ih =>
    intro grid rands stack visited h
    cases stack with
    | nil => exact h
    | cons current stackRest =>
      rw [generateMazeAux]
      cases hr : getRandomNeighbour current grid visited (rands.headD 0) with
      | none => exact ih grid rands stackRest visited h
      | some chosen =>
        apply ih
        apply symGrid_removeWall grid current chosen
        · exact candidates_diff_mem current grid visited chosen
            (getRandomNeighbour_mem hr)
        · exact h

theorem symGrid_populateGrid (h w : Int) : SymGrid (populateGrid h w) := by
  intro ea hea eb heb
  have ha := (mem_populateGrid h w ea).mp hea
  have hb := (mem_populateGrid h w eb).mp heb
  rw [ha.1, hb.1]
  exact ⟨fun _ => rfl, fun _ => rfl⟩

/-- Number of open passages of a grid: for every cell, an open shared wall
to its right neighbour (both facing booleans `false`, neighbour present) and
to its bottom neighbour count one passage each, so each passage of the maze
is counted exactly once. -/
def openEdgeCount (grid : Grid) : Nat :=
  (grid.map (fun e =>
    (match objGet grid (e.1.1 + 1, e.1.2) with
     | some w => if e.2.right = false ∧ w.left = false then 1 else 0
     | none => 0) +
    (match objGet grid (e.1.1, e.1.2 + 1) with
     | some w => if e.2.bottom = false ∧ w.top = false then 1 else 0
     | none => 0))).sum

/-- C1 (code bug): `generateMaze` does not always produce a spanning tree.
On the fully-walled 2×2 grid from `populateGrid`, the execution whose random
draws pick candidate index 0 at `(0,0)` (moving right), index 1 at `(1,0)`
(moving down), and the forced single candidates afterwards, opens all 4
possible passages among the 4 cells: the passage graph is the 4-cycle
`(0,0)-(1,0)-(1,1)-(0,1)-(0,0)`, not a tree (a spanning tree would have
exactly `4 - 1 = 3` passages).  Root cause: the source initialises the
visited set as `new Set("0,0")`, a set of the characters `"0"` and `","`,
so the start cell is never marked visited and the walk re-enters it through
a second wall. -/
theorem claim_C1 :
    openEdgeCount (generateMaze [0, 1, 0, 0] (populateGrid 2 2)) = 4 ∧
    (populateGrid 2 2).length = 4 := by
  constructor
  · decide
  · decide

/-- C3 (confirmed): wall symmetry is preserved by every `removeWall` call on
4-adjacent cells of a symmetric grid, and holds after `generateMaze`
completes on any grid produced by `populateGrid` (which is fully walled and
hence symmetric), for every random choice sequence and any grid size. -/
theorem claim_C3 :
    (∀ (grid : Grid) (a b : Cell), SymGrid grid →
        ((b.1 - a.1, b.2 - a.2) : Cell) ∈ unitDirections →
        SymGrid (removeWall grid a b)) ∧
    (∀ (h w : Int) (rands : List Nat),
        SymGrid (generateMaze rands (populateGrid h w))) := by
  constructor
  · intro grid a b hsym hadj
    exact symGrid_removeWall grid a b hadj hsym
  · intro h w rands
    exact symGrid_generateMazeAux _ _ _ _ _ (symGrid_populateGrid h w)

/-- Witness for C3: a concrete instance with the hypotheses discharged —
opening the wall between the adjacent cells `(0,0)` and `(1,0)` of the
fully-walled 2×2 grid preserves wall symmetry. -/
theorem claim_C3_witness :
    SymGrid (removeWall (populateGrid 2 2) ((0 : Int), (0 : Int)) ((1 : Int), (0 : Int))) :=
  claim_C3.1 (populateGrid 2 2) ((0 : Int), (0 : Int)) ((1 : Int), (0 : Int))
    (by decide) (by decide)

/-- C4 counterexample: `populateGrid` does not fail on nonpositive
dimensions.  Called with width and height 0 (or a negative width) it
completes normally and returns a grid object — the empty one — whereas the
claim states that `create` "fails (does not return a grid) whenever
width ≤ 0 or height ≤ 0".  (In the source the only dimension check,
`validateGridWidth`, lives in the UI flow and bounds the width to 10-300;
`populateGrid` itself accepts anything and its loops simply run zero
times.) -/
theorem claim_C4_counterexample :
    populateGrid 0 0 = ([] : Grid) ∧ populateGrid 5 (-3) = ([] : Grid) := by
  constructor
  · rfl
  · rfl

/-- C4 (amended): `create` never fails: for nonpositive width or height it
returns the empty grid (no cells), and in general exactly the cells `(x, y)`
with `0 ≤ x < width` and `0 ≤ y < height` are present, each with all four
walls closed. -/
theorem claim_C4_amended (w h : Int) :
    ((w ≤ 0 ∨ h ≤ 0) → populateGrid h w = []) ∧
    (∀ x y : Int, objGet (populateGrid h w) (x, y) =
      (if 0 ≤ x ∧ x < w ∧ 0 ≤ y ∧ y < h then some allWalls else none)) := by
  constructor
  · exact populateGrid_nonpos h w
  · intro x y
    exact objGet_populateGrid h w (x, y)

/-- Witness for C4 (amended) at concrete inputs: width −1 gives the empty
grid, and cell `(2, 0)` of a 3×3 grid is present with all walls closed. -/
theorem claim_C4_witness :
    populateGrid 0 (-1) = ([] : Grid) ∧
    objGet (populateGrid 3 3) ((2 : Int), (0 : Int)) = some allWalls := by
  constructor
  · exact (claim_C4_amended (-1) 0).1 (Or.inl (by decide))
  · rw [(claim_C4_amended 3 3).2 2 0]
    decide

/-! ### Path solving (src/solveMaze.js) -/

/-- The selection function `getLowestCostNodeKey` (solveMaze.js lines 85-89):
`Object.entries(openNodes).reduce(..., Object.keys(openNodes)[0])` — a fold
over the entries in enumeration (= insertion) order, starting from the first
key and replacing the accumulator only on a strictly smaller `totalCost`, so
the earliest-inserted entry among those of minimal total cost wins.  The JS
accumulator is the key and the comparison re-reads `openNodes[minEntry]`;
an object holds exactly one entry per key, so this equals carrying the whole
entry, which the model does (the loop then uses the entry as
`[minKey, openNodes[minKey]]`).  The source's reduce visits the first entry
too, comparing it against itself with strict `<`, which keeps it — hence the
fold over the tail. -/
def getLowestCostNode (e : Cell × Node) (rest : NodeMap) : Cell × Node :=
  rest.foldl (fun minEntry kv =>
    if kv.2.totalCost < minEntry.2.totalCost then kv else minEntry) e

theorem getLowestCostNode_spec (e : Cell × Node) (rest : NodeMap) :
    ∃ before after,
      e :: rest = before ++ getLowestCostNode e rest :: after ∧
      (∀ x ∈ e :: rest, (getLowestCostNode e rest).2.totalCost ≤ x.2.totalCost) ∧
      (∀ x ∈ before, (getLowestCostNode e rest).2.totalCost < x.2.totalCost) := by
  induction rest generalizing e with
  | nil =>
    refine ⟨[], [], rfl, ?_, by simp⟩
    intro x hx
    rw [List.mem_singleton] at hx
    subst hx
    exact le_refl _
  | cons kv rest2 ih =>
    have hfold : getLowestCostNode e (kv :: rest2)
        = getLowestCostNode (if kv.2.totalCost < e.2.totalCost then kv else e) rest2 := rfl
    by_cases hlt : kv.2.totalCost < e.2.totalCost
    · rw [hfold, if_pos hlt]
      rcases ih kv with ⟨b2, a2, heq, hmin, hstrict⟩
      have hselkv : (getLowestCostNode kv rest2).2.totalCost ≤ kv.2.totalCost :=
        hmin kv (List.mem_cons_self kv rest2)
      refine ⟨e :: b2, a2, ?_, ?_, ?_⟩
      · rw [List.cons_append, ← heq]
      · intro x hx
        rcases List.mem_cons.mp hx with hx | hx
        · subst hx
          exact le_of_lt (lt_of_le_of_lt hselkv hlt)
        · exact hmin x hx
      · intro x hx
        rcases List.mem_cons.mp hx with hx | hx
        · subst hx
          exact lt_of_le_of_lt hselkv hlt
        · exact hstrict x hx
    · rw [hfold, if_neg hlt]
      push_neg at hlt
      rcases ih e with ⟨b2, a2, heq, hmin, hstrict⟩
      cases b2 with
      | nil =>
        rw [List.nil_append] at heq
        have hsel2 : e = getLowestCostNode e rest2 := by
          have := congrArg (fun l => l.head?) heq
          simpa using this
        refine ⟨[], kv :: rest2, ?_, ?_, by simp⟩
        · rw [List.nil_append, ← hsel2]
        · intro x hx
          rcases List.mem_cons.mp hx with hx | hx
          · subst hx
            rw [← hsel2]
          · rcases List.mem_cons.mp hx with hx2 | hx2
            · subst hx2
              rw [← hsel2]
              exact hlt
            · exact hmin x (List.mem_cons_of_mem _ hx2)
      | cons hd b2x =>
        rw [List.cons_append] at heq
        have hhd : e = hd := by
          have := congrArg (fun l => l.head?) heq
          simpa using this
        have htl : rest2 = b2x ++ getLowestCostNode e rest2 :: a2 := by
          have := congrArg (fun l => l.tail) heq
          simpa using this
        have hstre : (getLowestCostNode e rest2).2.totalCost < e.2.totalCost := by
          have := hstrict hd (List.mem_cons_self hd b2x)
          rw [← hhd] at this
          exact this
        refine ⟨e :: kv :: b2x, a2, ?_, ?_, ?_⟩
        · rw [List.cons_append, List.cons_append, ← htl]
        · intro x hx
          rcases List.mem_cons.mp hx with hx | hx
          · subst hx
            exact le_of_lt hstre
          · rcases List.mem_cons.mp hx with hx2 | hx2
            · subst hx2
              exact le_of_lt (lt_of_lt_of_le hstre hlt)
            · exact hmin x (List.mem_cons_of_mem _ hx2)
        · intro x hx
          rcases List.mem_cons.mp hx with hx | hx
          · subst hx
            exact hstre
          · rcases List.mem_cons.mp hx with hx2 | hx2
            · subst hx2
              exact lt_of_lt_of_le hstre hlt
            · exact hstrict x (List.mem_cons_of_mem _ hx2)

/-- C5 (confirmed): on every non-empty frontier (modelled as the entry list
in insertion order, which JS object enumeration preserves — updates keep a
key's position and closed keys are never re-inserted), the entry selected by
`getLowestCostNodeKey` has minimal total cost, and every entry inserted
strictly earlier has strictly greater total cost — i.e. among equal-minimum
entries the earliest-inserted one is selected. -/
theorem claim_C5 (e : Cell × Node) (rest : NodeMap) :
    ∃ before after,
      e :: rest = before ++ getLowestCostNode e rest :: after ∧
      (∀ x ∈ e :: rest, (getLowestCostNode e rest).2.totalCost ≤ x.2.totalCost) ∧
      (∀ x ∈ before, (getLowestCostNode e rest).2.totalCost < x.2.totalCost) :=
  getLowestCostNode_spec e rest

/-- The start cell `"0,0"` of every search. -/
def startCell : Cell := ((0 : Int), (0 : Int))

/-- The heuristic `getHeuristicMeasure(currentCell, targetCell)` (solveMaze.js lines
162-170): the Manhattan distance
`Math.abs(x2 − x1) + Math.abs(y2 − y1)`. -/
def getHeuristicMeasure (currentCell targetCell : Cell) : Nat :=
  (targetCell.1 - currentCell.1).natAbs + (targetCell.2 - currentCell.2).natAbs

/-- Whether the wall selected by `wallOf` of cell `c` is open (`false`),
with `c` present in the grid; `false` when `c` is absent.  This is the grid
test `grid.hasOwnProperty(n) && !grid[n].wall` used (negated) by
`getViableNeighbours`. -/
def wallOpen (grid : Grid) (c : Cell) (wallOf : Walls → Bool) : Bool :=
  match objGet grid c with
  | none => false
  | some w => !(wallOf w)

/-- The passability relation `findPath` applies, extracted from
`getViableNeighbours` (solveMaze.js lines 122-149): a step from `a` into the
4-adjacent cell `b` is possible iff `b` is present in the grid and the wall
of `b` facing `a` — the right neighbour's `left` wall, the left neighbour's
`right` wall, the lower neighbour's `top` wall, the upper neighbour's
`bottom` wall — is open.  The wall of `a` itself is never consulted. -/
def canStep (grid : Grid) (a b : Cell) : Bool :=
  ((b == (a.1, a.2 - 1)) && wallOpen grid b (·.bottom)) ||
  ((b == (a.1, a.2 + 1)) && wallOpen grid b (·.top)) ||
  ((b == (a.1 - 1, a.2)) && wallOpen grid b (·.right)) ||
  ((b == (a.1 + 1, a.2)) && wallOpen grid b (·.left))

/-- The filter `getViableNeighbours(grid, currentNode, closedNodes)` (solveMaze.js
lines 111-152): build `[up, down, left, right]` and splice out — from index
3 down to 0, which keeps the survivors in their original relative order —
every neighbour that is outside the grid, blocked by its own facing wall, or
already closed (`closedNodes[n]` truthy means the key is present). -/
def getViableNeighbours (grid : Grid) (currentNode : Cell)
    (closedNodes : NodeMap) : List Cell :=
  (if (wallOpen grid (currentNode.1, currentNode.2 - 1) (·.bottom)
        && (objGet closedNodes (currentNode.1, currentNode.2 - 1)).isNone) = true
   then [(currentNode.1, currentNode.2 - 1)] else []) ++
  (if (wallOpen grid (currentNode.1, currentNode.2 + 1) (·.top)
        && (objGet closedNodes (currentNode.1, currentNode.2 + 1)).isNone) = true
   then [(currentNode.1, currentNode.2 + 1)] else []) ++
  (if (wallOpen grid (currentNode.1 - 1, currentNode.2) (·.right)
        && (objGet closedNodes (currentNode.1 - 1, currentNode.2)).isNone) = true
   then [(currentNode.1 - 1, currentNode.2)] else []) ++
  (if (wallOpen grid (currentNode.1 + 1, currentNode.2) (·.left)
        && (objGet closedNodes (currentNode.1 + 1, currentNode.2)).isNone) = true
   then [(currentNode.1 + 1, currentNode.2)] else [])

/-- The neighbour-evaluation `for` loop of `findPath` (solveMaze.js lines
49-68): for each viable neighbour in list order build the candidate node —
parent is the current key, move cost one more than the current node's,
heuristic cost the Manhattan distance to the finish, total cost their sum
(the source writes a placeholder 0 and immediately overwrites it with the
sum; `candidateNode` is that node) — and insert it when the key is absent
from the open set, or overwrite when the existing entry's total cost is
strictly greater. -/
def candidateNode (finishCell : Cell) (current : Cell × Node) (nb : Cell) : Node :=
  { parent := current.1
    moveCost := current.2.moveCost + 1
    distCost := getHeuristicMeasure nb finishCell
    totalCost := current.2.moveCost + 1 + getHeuristicMeasure nb finishCell }

def expandNeighbours (finishCell : Cell) (current : Cell × Node)
    (openNodes : NodeMap) : List Cell → NodeMap
  | [] => openNodes
  | nb :: restNbs =>
    let neighbourNode : Node := candidateNode finishCell current nb
    let openNodes2 : NodeMap :=
      match objGet openNodes nb with
      | none => objSet openNodes nb neighbourNode
      | some existing =>
          if neighbourNode.totalCost < existing.totalCost
          then objSet openNodes nb neighbourNode
          else openNodes
    expandNeighbours finishCell current openNodes2 restNbs

/-- Result of a search: success carries the closed dictionary and the finish
key (the array `[closedNodes, finishCell]` the source returns), `notFound`
is the `undefined` returned when the frontier empties.  `outOfFuel` marks
exhaustion of the fuel bound of the loop model; `findPath` supplies fuel
exceeding the possible number of iterations, and `findPathLoop_completes`
below proves this value unreachable. -/
inductive SearchResult where
  | found (closedNodes : NodeMap) (finishCell : Cell)
  | notFound
  | outOfFuel
deriving DecidableEq, Repr

/-- The `while` loop of `findPath` (solveMaze.js lines 29-72).  Each
iteration selects the open entry of minimal total cost (earliest-inserted on
ties), returns success if it is the finish (after recording it closed),
otherwise expands its viable neighbours, records it closed and deletes it
from the open set.  The grid is threaded through unchanged to every return
point, making the loop's (absent) effect on the grid part of the model. -/
def findPathLoop (finishCell : Cell) :
    Nat → Grid → NodeMap → NodeMap → SearchResult × Grid
  | 0, grid, _, _ => (.outOfFuel, grid)
  | fuel + 1, grid, openNodes, closedNodes =>
    match openNodes with
    | [] => (.notFound, grid)
    | e :: rest =>
      let current := getLowestCostNode e rest
      if current.1 = finishCell then
        (.found (objSet closedNodes current.1 current.2) finishCell, grid)
      else
        let possibleNeighbours := getViableNeighbours grid current.1 closedNodes
        let openNodes2 := expandNeighbours finishCell current (e :: rest) possibleNeighbours
        findPathLoop finishCell fuel grid (objDelete openNodes2 current.1)
          (objSet closedNodes current.1 current.2)

/-- The starting node (solveMaze.js lines 21-26): its own parent, all three
costs zero — in particular `distCost` is the literal 0, not the Manhattan
distance to the finish. -/
def initNode : Node :=
  { parent := startCell, moveCost := 0, distCost := 0, totalCost := 0 }

/-- The solver `findPath(grid, gridWidth, gridHeight)` (solveMaze.js lines 12-76):
finish cell `(gridWidth − 1, gridHeight − 1)`, open set initialised with the
start node, closed set empty.  Fuel `grid.length + 2` strictly exceeds every
possible iteration count: each iteration permanently moves one fresh key —
always the start or a grid cell — into the closed set. -/
def findPath (grid : Grid) (gridWidth gridHeight : Int) : SearchResult × Grid :=
  findPathLoop (gridWidth - 1, gridHeight - 1) (grid.length + 2) grid
    [(startCell, initNode)] []

/-- A route through the maze as `findPath` can walk it: a non-empty list of
cells starting at `s`, ending at `t`, each consecutive pair a permitted
step.  Its move count is its length minus one. -/
def IsRoute (grid : Grid) (s t : Cell) (R : List Cell) : Prop :=
  R.head? = some s ∧ R.getLast? = some t ∧
    List.Chain' (fun a b => canStep grid a b = true) R

/-- Path reconstruction by parent links, as the repository walks it
(`drawFoundPath`, src/unnamed/part_000 lines 176-201): start from the goal
key, follow `closed[current].parent`, stop on reaching `"0,0"`; this lists
the path cells from the goal back to the start.  `fuel` bounds the walk; any
value at least the goal node's move cost yields the full chain. -/
def reconstructPath (closedNodes : NodeMap) : Nat → Cell → List Cell
  | 0, c => [c]
  | fuel + 1, c =>
    if c = startCell then [c]
    else
      match objGet closedNodes c with
      | some node => c :: reconstructPath closedNodes fuel node.parent
      | none => [c]

/-- The 2×2 grid of spec §8's worked example: fully walled except for the
passages `(0,0)-(1,0)` and `(1,0)-(1,1)`, built with the repository's own
operations. -/
def grid8 : Grid :=
  removeWall
    (removeWall (populateGrid 2 2) ((0 : Int), (0 : Int)) ((1 : Int), (0 : Int)))
    ((1 : Int), (0 : Int)) ((1 : Int), (1 : Int))

/-- The closed dictionary `findPath grid8 2 2` returns. -/
def closed8 : NodeMap :=
  [(((0 : Int), (0 : Int)), ⟨((0 : Int), (0 : Int)), 0, 0, 0⟩),
   (((1 : Int), (0 : Int)), ⟨((0 : Int), (0 : Int)), 1, 1, 2⟩),
   (((1 : Int), (1 : Int)), ⟨((1 : Int), (0 : Int)), 2, 0, 2⟩)]

/-- C8 (confirmed): on the 2×2 grid whose only open walls are between
`(0,0)-(1,0)` and `(1,0)-(1,1)`, `findPath` returns success with goal
`"1,1"` and the displayed closed set; following parent links from the goal
yields exactly the path `(1,1) ← (1,0) ← (0,0)` — i.e.
`(0,0) → (1,0) → (1,1)` — and the goal node's move cost is 2. -/
theorem claim_C8 :
    (findPath grid8 2 2).1 = .found closed8 ((1 : Int), (1 : Int)) ∧
    reconstructPath closed8 2 ((1 : Int), (1 : Int))
      = [((1 : Int), (1 : Int)), ((1 : Int), (0 : Int)), ((0 : Int), (0 : Int))] ∧
    objGet closed8 ((1 : Int), (1 : Int))
      = some ⟨((1 : Int), (0 : Int)), 2, 0, 2⟩ := by
  refine ⟨by decide, by decide, by decide⟩

/-- C6 counterexample: not every node `findPath` creates has its heuristic
cost equal to the Manhattan distance to the goal.  On `grid8` (2×2), the
START node — created at initialisation and present in the returned closed
set — has `distCost = 0`, while the Manhattan distance from `(0,0)` to the
goal `(1,1)` is 2. -/
theorem claim_C6_counterexample :
    (findPath grid8 2 2).1 = .found closed8 ((1 : Int), (1 : Int)) ∧
    objGet closed8 startCell = some initNode ∧
    initNode.distCost = 0 ∧
    getHeuristicMeasure startCell ((1 : Int), (1 : Int)) = 2 := by
  refine ⟨by decide, by decide, rfl, by decide⟩

theorem findPathLoop_grid (finishCell : Cell) (fuel : Nat) :
    ∀ (grid : Grid) (openNodes closedNodes : NodeMap),
      (findPathLoop finishCell fuel grid openNodes closedNodes).2 = grid := by
  induction fuel with
  | zero =>
    intro grid o c
    rfl
  | succ n ih =>
    intro grid o c
    cases o with
    | nil => rfl
    | cons e rest =>
      rw [findPathLoop]
      dsimp only
      split
      · rfl
      · exact ih grid _ _

/-- C9 (confirmed): `findPath` never mutates the grid.  The model threads
the grid through every step of the search loop to its result, and the grid
component of the result is the input grid for every grid, width and height,
whether the search returns success or not-found. -/
theorem claim_C9 (grid : Grid) (gridWidth gridHeight : Int) :
    (findPath grid gridWidth gridHeight).2 = grid :=
  findPathLoop_grid (gridWidth - 1, gridHeight - 1) (grid.length + 2) grid
    [(startCell, initNode)] []

/-- Witness for C9 at a concrete input. -/
theorem claim_C9_witness : (findPath grid8 2 2).2 = grid8 :=
  claim_C9 grid8 2 2

/-- Witness for C5 at a concrete two-entry frontier. -/
theorem claim_C5_witness :
    ∃ before after,
      [(startCell, initNode),
       (((1 : Int), (0 : Int)), (⟨startCell, 1, 1, 2⟩ : Node))]
        = before
            ++ getLowestCostNode (startCell, initNode)
                [(((1 : Int), (0 : Int)), (⟨startCell, 1, 1, 2⟩ : Node))] :: after ∧
      (∀ x ∈ [(startCell, initNode),
              (((1 : Int), (0 : Int)), (⟨startCell, 1, 1, 2⟩ : Node))],
        (getLowestCostNode (startCell, initNode)
          [(((1 : Int), (0 : Int)), (⟨startCell, 1, 1, 2⟩ : Node))]).2.totalCost
            ≤ x.2.totalCost) ∧
      (∀ x ∈ before,
        (getLowestCostNode (startCell, initNode)
          [(((1 : Int), (0 : Int)), (⟨startCell, 1, 1, 2⟩ : Node))]).2.totalCost
            < x.2.totalCost) :=
  claim_C5 (startCell, initNode)
    [(((1 : Int), (0 : Int)), (⟨startCell, 1, 1, 2⟩ : Node))]

/-! ### Properties of the passability relation and of routes -/

theorem canStep_present {grid : Grid} {a b : Cell} (h : canStep grid a b = true) :
    ∃ w, objGet grid b = some w := by
  unfold canStep wallOpen at h
  rcases ho : objGet grid b with _ | w
  · rw [ho] at h
    simp at h
  · exact ⟨w, rfl⟩

theorem canStep_heuristic {grid : Grid} {a b : Cell} (h : canStep grid a b = true)
    (t : Cell) : getHeuristicMeasure a t ≤ getHeuristicMeasure b t + 1 := by
  unfold canStep at h
  simp only [Bool.or_eq_true, Bool.and_eq_true, beq_iff_eq] at h
  unfold getHeuristicMeasure
  rcases h with (((⟨hb, _⟩ | ⟨hb, _⟩) | ⟨hb, _⟩) | ⟨hb, _⟩) <;>
    (subst hb; dsimp only; omega)

theorem heuristic_chain (grid : Grid) (fin : Cell) :
    ∀ (S : List Cell) (d c : Cell),
      List.Chain' (fun a b => canStep grid a b = true) (d :: S) →
      (d :: S).getLast? = some c →
      getHeuristicMeasure d fin ≤ S.length + getHeuristicMeasure c fin := by
  intro S
  induction S with
  | nil =>
    intro d c _ hlast
    simp only [List.getLast?_singleton, Option.some.injEq] at hlast
    subst hlast
    simp
  | cons s S2 ih =>
    intro d c hchain hlast
    have hstep : canStep grid d s = true := (List.chain'_cons.mp hchain).1
    have hchain2 : List.Chain' (fun a b => canStep grid a b = true) (s :: S2) :=
      (List.chain'_cons.mp hchain).2
    have hlast2 : (s :: S2).getLast? = some c := by
      rw [List.getLast?_cons_cons] at hlast
      exact hlast
    have := ih s c hchain2 hlast2
    have hh := canStep_heuristic hstep fin
    calc getHeuristicMeasure d fin ≤ getHeuristicMeasure s fin + 1 := hh
    _ ≤ (S2.length + getHeuristicMeasure c fin) + 1 := by omega
    _ = (s :: S2).length + getHeuristicMeasure c fin := by
        simp [List.length_cons]
        omega

theorem isRoute_append {grid : Grid} {s p c : Cell} {R : List Cell}
    (hR : IsRoute grid s p R) (hstep : canStep grid p c = true) :
    IsRoute grid s c (R ++ [c]) := by
  obtain ⟨hhead, hlast, hchain⟩ := hR
  refine ⟨?_, ?_, ?_⟩
  · cases R with
    | nil => simp at hhead
    | cons a R2 => simpa using hhead
  · simp
  · rw [List.chain'_append]
    refine ⟨hchain, List.chain'_singleton c, ?_⟩
    intro x hx y hy
    simp only [List.head?_cons, Option.mem_def, Option.some.injEq] at hy
    subst hy
    rw [Option.mem_def] at hx
    rw [hlast] at hx
    cases hx
    exact hstep

theorem route_singleton (grid : Grid) (s : Cell) : IsRoute grid s s [s] :=
  ⟨rfl, rfl, List.chain'_singleton s⟩

theorem route_split_first_open (K : List Cell) :
    ∀ (R : List Cell), (∃ x ∈ R, x ∉ K) →
      ∃ P d S, R = P ++ d :: S ∧ (∀ p ∈ P, p ∈ K) ∧ d ∉ K := by
  intro R
  induction R with
  | nil => simp
  | cons a R2 ih =>
    intro hex
    by_cases ha : a ∈ K
    · have hex2 : ∃ x ∈ R2, x ∉ K := by
        rcases hex with ⟨x, hx, hnx⟩
        rcases List.mem_cons.mp hx with hx2 | hx2
        · exact absurd (hx2 ▸ ha) hnx
        · exact ⟨x, hx2, hnx⟩
      rcases ih hex2 with ⟨P, d, S, heq, hP, hd⟩
      refine ⟨a :: P, d, S, by rw [List.cons_append, heq], ?_, hd⟩
      intro p hp
      rcases List.mem_cons.mp hp with hp2 | hp2
      · exact hp2 ▸ ha
      · exact hP p hp2
    · exact ⟨[], a, R2, rfl, by simp, ha⟩

theorem mem_ite_singleton_iff {P : Prop} [Decidable P] {c x : Cell} :
    c ∈ (if P then [x] else []) ↔ P ∧ c = x := by
  split
  · simp [*]
  · simp [*]

theorem viable_canStep {grid : Grid} {cur : Cell} {closedNodes : NodeMap} {b : Cell}
    (h : b ∈ getViableNeighbours grid cur closedNodes) :
    canStep grid cur b = true ∧ objGet closedNodes b = none := by
  unfold getViableNeighbours at h
  have handle : ∀ (c : Cell) (wf : Walls → Bool),
      b ∈ (if (wallOpen grid c wf && (objGet closedNodes c).isNone) = true
           then [c] else []) →
      b = c ∧ wallOpen grid c wf = true ∧ objGet closedNodes c = none := by
    intro c wf hmem
    split at hmem
    · rename_i hcond
      rw [List.mem_singleton] at hmem
      simp only [Bool.and_eq_true, Option.isNone_iff_eq_none] at hcond
      exact ⟨hmem, hcond.1, hcond.2⟩
    · simp at hmem
  rcases List.mem_append.mp h with h1 | h1
  rotate_left
  · rcases handle _ _ h1 with ⟨hb, hw, hn⟩
    subst hb
    refine ⟨?_, hn⟩
    unfold canStep
    simp [hw]
  rcases List.mem_append.mp h1 with h2 | h2
  rotate_left
  · rcases handle _ _ h2 with ⟨hb, hw, hn⟩
    subst hb
    refine ⟨?_, hn⟩
    unfold canStep
    simp [hw]
  rcases List.mem_append.mp h2 with h3 | h3
  · rcases handle _ _ h3 with ⟨hb, hw, hn⟩
    subst hb
    refine ⟨?_, hn⟩
    unfold canStep
    simp [hw]
  · rcases handle _ _ h3 with ⟨hb, hw, hn⟩
    subst hb
    refine ⟨?_, hn⟩
    unfold canStep
    simp [hw]

theorem canStep_viable {grid : Grid} {cur : Cell} {closedNodes : NodeMap} {b : Cell}
    (h1 : canStep grid cur b = true) (h2 : objGet closedNodes b = none) :
    b ∈ getViableNeighbours grid cur closedNodes := by
  unfold canStep at h1
  simp only [Bool.or_eq_true, Bool.and_eq_true, beq_iff_eq] at h1
  unfold getViableNeighbours
  rcases h1 with (((⟨hb, hw⟩ | ⟨hb, hw⟩) | ⟨hb, hw⟩) | ⟨hb, hw⟩) <;> subst hb
  · refine List.mem_append.mpr (Or.inl (List.mem_append.mpr (Or.inl
      (List.mem_append.mpr (Or.inl ?_)))))
    rw [if_pos (by simp [hw, h2])]
    exact List.mem_singleton_self _
  · refine List.mem_append.mpr (Or.inl (List.mem_append.mpr (Or.inl
      (List.mem_append.mpr (Or.inr ?_)))))
    rw [if_pos (by simp [hw, h2])]
    exact List.mem_singleton_self _
  · refine List.mem_append.mpr (Or.inl (List.mem_append.mpr (Or.inr ?_)))
    rw [if_pos (by simp [hw, h2])]
    exact List.mem_singleton_self _
  · refine List.mem_append.mpr (Or.inr ?_)
    rw [if_pos (by simp [hw, h2])]
    exact List.mem_singleton_self _

theorem mem_getViableNeighbours (grid : Grid) (cur : Cell) (closedNodes : NodeMap)
    (b : Cell) :
    b ∈ getViableNeighbours grid cur closedNodes ↔
      (canStep grid cur b = true ∧ objGet closedNodes b = none) :=
  ⟨viable_canStep, fun h => canStep_viable h.1 h.2⟩

/-- The single-neighbour update step of `expandNeighbours`. -/
def expandStep (finishCell : Cell) (cur : Cell × Node) (openN : NodeMap)
    (nb : Cell) : NodeMap :=
  match objGet openN nb with
  | none => objSet openN nb (candidateNode finishCell cur nb)
  | some existing =>
      if (candidateNode finishCell cur nb).totalCost < existing.totalCost
      then objSet openN nb (candidateNode finishCell cur nb)
      else openN

theorem expandNeighbours_cons (fin : Cell) (cur : Cell × Node) (openN : NodeMap)
    (nb : Cell) (rest : List Cell) :
    expandNeighbours fin cur openN (nb :: rest)
      = expandNeighbours fin cur (expandStep fin cur openN nb) rest := by
  rw [expandNeighbours, expandStep]

theorem expandStep_ne (fin : Cell) (cur : Cell × Node) (openN : NodeMap)
    (nb : Cell) (y : Cell) (hne : y ≠ nb) :
    objGet (expandStep fin cur openN nb) y = objGet openN y := by
  unfold expandStep
  rcases ho : objGet openN nb with _ | existing
  · simp only [ho]
    exact objGet_objSet_ne openN nb y _ hne
  · simp only [ho]
    split
    · exact objGet_objSet_ne openN nb y _ hne
    · rfl

theorem expandStep_nb (fin : Cell) (cur : Cell × Node) (openN : NodeMap)
    (nb : Cell) :
    ∃ x, objGet (expandStep fin cur openN nb) nb = some x ∧
      x.totalCost ≤ (candidateNode fin cur nb).totalCost ∧
      (x = candidateNode fin cur nb ∨ objGet openN nb = some x) ∧
      (∀ n0, objGet openN nb = some n0 →
        x.totalCost ≤ n0.totalCost ∧ (x = n0 ∨ x = candidateNode fin cur nb)) := by
  unfold expandStep
  rcases ho : objGet openN nb with _ | existing
  · refine ⟨candidateNode fin cur nb, ?_, le_refl _, Or.inl rfl, ?_⟩
    · simp only [ho]
      exact objGet_objSet_self _ _ _
    · intro n0 h0
      exact absurd h0 (by simp)
  · by_cases hlt : (candidateNode fin cur nb).totalCost < existing.totalCost
    · refine ⟨candidateNode fin cur nb, ?_, le_refl _, Or.inl rfl, ?_⟩
      · simp only [ho, if_pos hlt]
        exact objGet_objSet_self _ _ _
      · intro n0 h0
        injection h0 with h0
        subst h0
        exact ⟨le_of_lt hlt, Or.inr rfl⟩
    · refine ⟨existing, ?_, by omega, Or.inr rfl, ?_⟩
      · simp only [ho, if_neg hlt]
      · intro n0 h0
        injection h0 with h0
        subst h0
        exact ⟨le_refl _, Or.inl rfl⟩

theorem expandStep_nodup (fin : Cell) (cur : Cell × Node) (openN : NodeMap)
    (nb : Cell) (h : NodupKeys openN) :
    NodupKeys (expandStep fin cur openN nb) := by
  unfold expandStep
  rcases ho : objGet openN nb with _ | existing
  · simp only [ho]
    exact nodupKeys_objSet _ _ _ h
  · simp only [ho]
    split
    · exact nodupKeys_objSet _ _ _ h
    · exact h

theorem expandStep_prov (fin : Cell) (cur : Cell × Node) (openN : NodeMap)
    (nb : Cell) (y : Cell) (n2 : Node)
    (h : objGet (expandStep fin cur openN nb) y = some n2) :
    objGet openN y = some n2 ∨ (y = nb ∧ n2 = candidateNode fin cur nb) := by
  by_cases hy : y = nb
  · subst hy
    rcases expandStep_nb fin cur openN y with ⟨x, hx, _, hdisj, _⟩
    rw [h] at hx
    cases hx
    rcases hdisj with hd | hd
    · exact Or.inr ⟨rfl, hd⟩
    · exact Or.inl hd
  · rw [expandStep_ne fin cur openN nb y hy] at h
    exact Or.inl h

theorem expand_spec (fin : Cell) (cur : Cell × Node) :
    ∀ (nbs : List Cell) (openN : NodeMap),
      (∀ y, y ∉ nbs → objGet (expandNeighbours fin cur openN nbs) y = objGet openN y) ∧
      (∀ y n, objGet openN y = some n →
        ∃ n2, objGet (expandNeighbours fin cur openN nbs) y = some n2 ∧
          n2.totalCost ≤ n.totalCost ∧ (n2 = n ∨ n2 = candidateNode fin cur y)) ∧
      (∀ y, y ∈ nbs →
        ∃ n2, objGet (expandNeighbours fin cur openN nbs) y = some n2 ∧
          n2.totalCost ≤ (candidateNode fin cur y).totalCost ∧
          (n2 = candidateNode fin cur y ∨ objGet openN y = some n2)) ∧
      (∀ y n2, objGet (expandNeighbours fin cur openN nbs) y = some n2 →
        objGet openN y = some n2 ∨ (y ∈ nbs ∧ n2 = candidateNode fin cur y)) ∧
      (NodupKeys openN → NodupKeys (expandNeighbours fin cur openN nbs)) := by
  intro nbs
  induction nbs with
  | nil =>
    intro openN
    refine ⟨fun y _ => rfl, ?_, ?_, ?_, fun h => h⟩
    · intro y n h
      exact ⟨n, h, le_refl _, Or.inl rfl⟩
    · intro y hy
      cases hy
    · intro y n2 h
      exact Or.inl h
  | cons nb rest ih =>
    intro openN
    rw [expandNeighbours_cons]
    obtain ⟨ih1, ih2, ih3, ih4, ih5⟩ := ih (expandStep fin cur openN nb)
    refine ⟨?_, ?_, ?_, ?_, ?_⟩
    · intro y hy
      have hynb : y ≠ nb := fun hc => hy (hc ▸ List.mem_cons_self nb rest)
      have hyrest : y ∉ rest := fun hc => hy (List.mem_cons_of_mem nb hc)
      rw [ih1 y hyrest]
      exact expandStep_ne fin cur openN nb y hynb
    · intro y n hn
      by_cases hy : y = nb
      · subst hy
        rcases expandStep_nb fin cur openN y with ⟨x, hx, _, _, hall⟩
        rcases hall n hn with ⟨hxle, hxdisj⟩
        rcases ih2 y x hx with ⟨n2, hn2, hle2, hdisj2⟩
        refine ⟨n2, hn2, le_trans hle2 hxle, ?_⟩
        rcases hdisj2 with h2 | h2
        · subst h2
          rcases hxdisj with h3 | h3
          · exact Or.inl h3
          · exact Or.inr h3
        · exact Or.inr h2
      · have hst := expandStep_ne fin cur openN nb y hy
        rw [← hst] at hn
        exact ih2 y n hn
    · intro y hy
      by_cases hyr : y ∈ rest
      · rcases ih3 y hyr with ⟨n2, hn2, hle2, hdisj2⟩
        refine ⟨n2, hn2, hle2, ?_⟩
        rcases hdisj2 with h2 | h2
        · exact Or.inl h2
        · rcases expandStep_prov fin cur openN nb y n2 h2 with h3 | h3
          · exact Or.inr h3
          · exact Or.inl (h3.1 ▸ h3.2)
      · have hynb : y = nb := by
          rcases List.mem_cons.mp hy with h2 | h2
          · exact h2
          · exact absurd h2 hyr
        subst hynb
        rcases expandStep_nb fin cur openN y with ⟨x, hx, hxle, hxdisj, _⟩
        rcases ih2 y x hx with ⟨n2, hn2, hle2, hdisj2⟩
        refine ⟨n2, hn2, le_trans hle2 hxle, ?_⟩
        rcases hdisj2 with h2 | h2
        · subst h2
          rcases hxdisj with h3 | h3
          · exact Or.inl h3
          · exact Or.inr h3
        · exact Or.inl h2
    · intro y n2 h
      rcases ih4 y n2 h with h2 | h2
      · rcases expandStep_prov fin cur openN nb y n2 h2 with h3 | h3
        · exact Or.inl h3
        · exact Or.inr ⟨h3.1 ▸ List.mem_cons_self nb rest, h3.1 ▸ h3.2⟩
      · exact Or.inr ⟨List.mem_cons_of_mem nb h2.1, h2.2⟩
    · intro hnd
      exact ih5 (expandStep_nodup fin cur openN nb hnd)

theorem mem_of_getLast?_eq_some {l : List Cell} {a : Cell}
    (h : l.getLast? = some a) : a ∈ l := by
  rcases List.mem_getLast?_eq_getLast (Option.mem_def.mpr h) with ⟨hne, hEq⟩
  rw [hEq]
  exact List.getLast_mem hne

/-- The invariant of `findPath`'s main loop, tying the open and closed
dictionaries to the grid.  `costs`: every node's total cost is move cost
plus heuristic cost, the heuristic being Manhattan distance to the finish
for every cell except the start (whose node carries the literal 0 of the
initialisation).  `parentLink`: every node other than the start node was
created as a neighbour of an already-closed parent one step cheaper.
`closedOptimal`: closed move costs are lower bounds on every route from the
start.  `frontierComplete`: each passable exit from a closed cell to an
unclosed cell is on the frontier at a cost of at most one more step. -/
structure LoopInv (grid : Grid) (fin : Cell) (openN closedN : NodeMap) : Prop where
  openNodup : NodupKeys openN
  closedNodup : NodupKeys closedN
  disjoint : ∀ k, k ∈ objKeys openN → k ∉ objKeys closedN
  startMem : startCell ∈ objKeys openN ∨ startCell ∈ objKeys closedN
  startOpen : ∀ n, objGet openN startCell = some n → n = initNode
  startClosed : ∀ n, objGet closedN startCell = some n → n = initNode
  costs : ∀ c n, objGet openN c = some n ∨ objGet closedN c = some n →
    n.totalCost = n.moveCost + n.distCost ∧
    (c = startCell → n.distCost = 0) ∧
    (c ≠ startCell → n.distCost = getHeuristicMeasure c fin)
  parentLink : ∀ c n, objGet openN c = some n ∨ objGet closedN c = some n →
    (c = startCell ∧ n = initNode) ∨
    (∃ np, objGet closedN n.parent = some np ∧
      canStep grid n.parent c = true ∧ n.moveCost = np.moveCost + 1)
  closedOptimal : ∀ c n, objGet closedN c = some n →
    ∀ R, IsRoute grid startCell c R → n.moveCost + 1 ≤ R.length
  frontierComplete : ∀ p np, objGet closedN p = some np →
    ∀ y, canStep grid p y = true → y ∉ objKeys closedN →
      ∃ ny, objGet openN y = some ny ∧ ny.moveCost ≤ np.moveCost + 1
  openKeysGrid : ∀ k, k ∈ objKeys openN → k = startCell ∨ k ∈ objKeys grid
  closedKeysGrid : ∀ k, k ∈ objKeys closedN → k = startCell ∨ k ∈ objKeys grid

theorem loopInv_init (grid : Grid) (fin : Cell) :
    LoopInv grid fin [(startCell, initNode)] [] := by
  have hget : ∀ c n, objGet [(startCell, initNode)] c = some n →
      c = startCell ∧ n = initNode := by
    intro c n h
    have := mem_of_objGet_eq_some h
    simpa using this
  have hclosed : ∀ c n, objGet ([] : NodeMap) c = some n → False := by
    intro c n h
    simp [objGet] at h
  refine ⟨?_, ?_, ?_, ?_, ?_, ?_, ?_, ?_, ?_, ?_, ?_, ?_⟩
  · simp [NodupKeys, objKeys]
  · simp [NodupKeys, objKeys]
  · intro k _ hk
    simp [objKeys] at hk
  · exact Or.inl (by simp [objKeys])
  · intro n h
    exact (hget startCell n h).2
  · intro n h
    exact absurd h (by simp [objGet])
  · intro c n h
    rcases h with h | h
    · obtain ⟨hc, hn⟩ := hget c n h
      subst hc
      subst hn
      exact ⟨rfl, fun _ => rfl, fun hne => absurd rfl hne⟩
    · exact absurd h (by simp [objGet])
  · intro c n h
    rcases h with h | h
    · exact Or.inl ⟨(hget c n h).1, (hget c n h).2⟩
    · exact absurd h (by simp [objGet])
  · intro c n h
    exact absurd h (by simp [objGet])
  · intro p np h
    exact absurd h (by simp [objGet])
  · intro k hk
    simp [objKeys] at hk
    exact Or.inl hk
  · intro k hk
    simp [objKeys] at hk

/-- Optimality of the selected frontier entry: with the loop invariant in
force, the minimum-total-cost open entry's move cost is a lower bound on the
move count of every route from the start to its cell.  This is the classic
A*-with-consistent-heuristic argument, done on the first cell of the route
that is not yet closed. -/
theorem selected_optimal (grid : Grid) (fin : Cell) (e : Cell × Node) (rest : NodeMap)
    (closedN : NodeMap) (inv : LoopInv grid fin (e :: rest) closedN) :
    ∀ R, IsRoute grid startCell (getLowestCostNode e rest).1 R →
      (getLowestCostNode e rest).2.moveCost + 1 ≤ R.length := by
  obtain ⟨before, after, heq, hmin, _⟩ := getLowestCostNode_spec e rest
  set cur := getLowestCostNode e rest with hcurdef
  have hcurmem : cur ∈ e :: rest := by
    rw [heq]
    exact List.mem_append.mpr (Or.inr (List.mem_cons_self _ _))
  have hcurget : objGet (e :: rest) cur.1 = some cur.2 :=
    objGet_eq_some_of_mem inv.openNodup hcurmem
  intro R hR
  have hRne : R ≠ [] := by
    intro hc
    rw [hc] at hR
    exact absurd hR.1 (by simp)
  by_cases hstart : cur.1 = startCell
  · have h0 : cur.2 = initNode := inv.startOpen cur.2 (by rw [← hstart]; exact hcurget)
    rw [h0]
    have hpos : 0 < R.length := List.length_pos.mpr hRne
    simpa [initNode] using hpos
  · obtain ⟨hhead, hlast, hchain⟩ := hR
    have hmemopen : cur.1 ∈ objKeys (e :: rest) :=
      (mem_objKeys_iff _ _).mpr ⟨cur.2, hcurmem⟩
    have hcurnc : cur.1 ∉ objKeys closedN := inv.disjoint cur.1 hmemopen
    have hlastmem : cur.1 ∈ R := mem_of_getLast?_eq_some hlast
    obtain ⟨P, d, S, hsplit, hPclosed, hdnc⟩ :=
      route_split_first_open (objKeys closedN) R ⟨cur.1, hlastmem, hcurnc⟩
    subst hsplit
    rw [List.chain'_append] at hchain
    obtain ⟨hchainP, hchainDS, hjunction⟩ := hchain
    have hdopen : ∃ nd, objGet (e :: rest) d = some nd ∧ nd.moveCost ≤ P.length := by
      cases P with
      | nil =>
        have hd : d = startCell := by simpa using hhead
        subst hd
        have hsm : startCell ∈ objKeys (e :: rest) := by
          rcases inv.startMem with h | h
          · exact h
          · exact absurd h hdnc
        obtain ⟨n0, hn0⟩ := objGet_isSome_of_mem_keys hsm
        have := inv.startOpen n0 hn0
        subst this
        exact ⟨initNode, hn0, Nat.zero_le _⟩
      | cons p0 P1 =>
        have hp0 : p0 = startCell := by simpa using hhead
        obtain ⟨p, hPlast⟩ : ∃ p, (p0 :: P1).getLast? = some p :=
          ⟨(p0 :: P1).getLast (by simp), List.getLast?_eq_getLast_of_ne_nil (by simp)⟩
        have hpmem : p ∈ p0 :: P1 := mem_of_getLast?_eq_some hPlast
        have hpc : p ∈ objKeys closedN := hPclosed p hpmem
        obtain ⟨np, hnp⟩ := objGet_isSome_of_mem_keys hpc
        have hrouteP : IsRoute grid startCell p (p0 :: P1) := by
          refine ⟨by simp [hp0], hPlast, hchainP⟩
        have hoptP : np.moveCost + 1 ≤ (p0 :: P1).length :=
          inv.closedOptimal p np hnp _ hrouteP
        have hstep : canStep grid p d = true := by
          apply hjunction p (Option.mem_def.mpr hPlast) d
          simp
        obtain ⟨nd, hndget, hndmove⟩ :=
          inv.frontierComplete p np hnp d hstep hdnc
        exact ⟨nd, hndget, by omega⟩
    obtain ⟨nd, hndget, hndmove⟩ := hdopen
    have hndmem : (d, nd) ∈ e :: rest := mem_of_objGet_eq_some hndget
    have hminnd : cur.2.totalCost ≤ nd.totalCost := hmin (d, nd) hndmem
    have hndcosts := inv.costs d nd (Or.inl hndget)
    have hnddist : nd.distCost ≤ getHeuristicMeasure d fin := by
      by_cases hd : d = startCell
      · rw [hndcosts.2.1 hd]
        exact Nat.zero_le _
      · rw [hndcosts.2.2 hd]
    have hDSlast : (d :: S).getLast? = some cur.1 := by
      rw [List.getLast?_append_cons] at hlast
      exact hlast
    have hcons := heuristic_chain grid fin S d cur.1 hchainDS hDSlast
    have hcurcosts := inv.costs cur.1 cur.2 (Or.inl hcurget)
    have hcurtotal : cur.2.totalCost = cur.2.moveCost + cur.2.distCost := hcurcosts.1
    have hcurdist : cur.2.distCost = getHeuristicMeasure cur.1 fin := hcurcosts.2.2 hstart
    have hndtotal : nd.totalCost = nd.moveCost + nd.distCost := hndcosts.1
    have hlen : (P ++ d :: S).length = P.length + S.length + 1 := by
      simp [List.length_append]
      omega
    omega

theorem mem_keys_of_objGet {α : Type} {m : List (Cell × α)} {k : Cell} {v : α}
    (h : objGet m k = some v) : k ∈ objKeys m :=
  (mem_objKeys_iff _ _).mpr ⟨v, mem_of_objGet_eq_some h⟩

theorem candidateNode_moveCost (fin : Cell) (cur : Cell × Node) (y : Cell) :
    (candidateNode fin cur y).moveCost = cur.2.moveCost + 1 := rfl

theorem candidateNode_distCost (fin : Cell) (cur : Cell × Node) (y : Cell) :
    (candidateNode fin cur y).distCost = getHeuristicMeasure y fin := rfl

theorem candidateNode_totalCost (fin : Cell) (cur : Cell × Node) (y : Cell) :
    (candidateNode fin cur y).totalCost
      = cur.2.moveCost + 1 + getHeuristicMeasure y fin := rfl

theorem candidateNode_parent (fin : Cell) (cur : Cell × Node) (y : Cell) :
    (candidateNode fin cur y).parent = cur.1 := rfl

/-- One non-final iteration of the search loop preserves the invariant: the
selected entry moves from the open to the closed set, and its viable
neighbours are inserted into (or improved in) the open set. -/
theorem loopInv_step (grid : Grid) (fin : Cell) (e : Cell × Node) (rest : NodeMap)
    (closedN : NodeMap) (inv : LoopInv grid fin (e :: rest) closedN) :
    LoopInv grid fin
      (objDelete (expandNeighbours fin (getLowestCostNode e rest) (e :: rest)
          (getViableNeighbours grid (getLowestCostNode e rest).1 closedN))
        (getLowestCostNode e rest).1)
      (objSet closedN (getLowestCostNode e rest).1 (getLowestCostNode e rest).2) := by
  obtain ⟨before, after, heq, hmin, _⟩ := getLowestCostNode_spec e rest
  set cur := getLowestCostNode e rest with hcurdef
  set nbs := getViableNeighbours grid cur.1 closedN with hnbsdef
  set open2 := expandNeighbours fin cur (e :: rest) nbs with hopen2def
  have hcurmem : cur ∈ e :: rest := by
    rw [heq]
    exact List.mem_append.mpr (Or.inr (List.mem_cons_self _ _))
  have hcurget : objGet (e :: rest) cur.1 = some cur.2 :=
    objGet_eq_some_of_mem inv.openNodup hcurmem
  have hcurkey : cur.1 ∈ objKeys (e :: rest) := mem_keys_of_objGet hcurget
  have hcurnc : cur.1 ∉ objKeys closedN := inv.disjoint cur.1 hcurkey
  obtain ⟨S1, S2, S3, S4, S5⟩ := expand_spec fin cur nbs (e :: rest)
  have hop : ∀ y n, objGet (objDelete open2 cur.1) y = some n →
      y ≠ cur.1 ∧ objGet open2 y = some n := by
    intro y n h
    rw [objGet_objDelete] at h
    by_cases hy : y = cur.1
    · rw [if_pos hy] at h
      cases h
    · rw [if_neg hy] at h
      exact ⟨hy, h⟩
  have hopBack : ∀ y n, y ≠ cur.1 → objGet open2 y = some n →
      objGet (objDelete open2 cur.1) y = some n := by
    intro y n hy h
    rw [objGet_objDelete, if_neg hy]
    exact h
  have hcself : objGet (objSet closedN cur.1 cur.2) cur.1 = some cur.2 :=
    objGet_objSet_self _ _ _
  have hcne : ∀ x, x ≠ cur.1 →
      objGet (objSet closedN cur.1 cur.2) x = objGet closedN x := by
    intro x hx
    exact objGet_objSet_ne _ _ _ _ hx
  have hcback : ∀ x nx, objGet closedN x = some nx →
      objGet (objSet closedN cur.1 cur.2) x = some nx := by
    intro x nx hx
    have hxne : x ≠ cur.1 := by
      intro hc
      exact hcurnc (hc ▸ mem_keys_of_objGet hx)
    rw [hcne x hxne]
    exact hx
  have hcsplit : ∀ x nx, objGet (objSet closedN cur.1 cur.2) x = some nx →
      (x = cur.1 ∧ nx = cur.2) ∨ (x ≠ cur.1 ∧ objGet closedN x = some nx) := by
    intro x nx hx
    by_cases hxc : x = cur.1
    · subst hxc
      rw [hcself] at hx
      injection hx with hx
      exact Or.inl ⟨rfl, hx.symm⟩
    · rw [hcne x hxc] at hx
      exact Or.inr ⟨hxc, hx⟩
  have hstartopen2 : ∀ n, objGet open2 startCell = some n → n = initNode := by
    intro n hn
    rcases S4 startCell n hn with h | h
    · exact inv.startOpen n h
    · obtain ⟨hmem, hcand⟩ := h
      exfalso
      have hnc : objGet closedN startCell = none := (viable_canStep hmem).2
      have hsm : startCell ∈ objKeys (e :: rest) := by
        rcases inv.startMem with h2 | h2
        · exact h2
        · exact absurd h2 ((objGet_eq_none_iff_keys _ _).mp hnc)
      obtain ⟨n0, hn0⟩ := objGet_isSome_of_mem_keys hsm
      have hn0init := inv.startOpen n0 hn0
      subst hn0init
      rcases S2 startCell initNode hn0 with ⟨n2, hn2, hle2, _⟩
      rw [hn] at hn2
      injection hn2 with hn2
      subst hn2
      rw [hcand, candidateNode_totalCost] at hle2
      simp [initNode] at hle2
  have hnbsGrid : ∀ y, y ∈ nbs → y ∈ objKeys grid := by
    intro y hy
    obtain ⟨w, hw⟩ := canStep_present (viable_canStep hy).1
    exact mem_keys_of_objGet hw
  refine ⟨?_, ?_, ?_, ?_, ?_, ?_, ?_, ?_, ?_, ?_, ?_, ?_⟩
  · exact nodupKeys_objDelete _ _ (S5 inv.openNodup)
  · exact nodupKeys_objSet _ _ _ inv.closedNodup
  · -- disjoint
    intro k hk hkc
    rw [mem_objKeys_objDelete] at hk
    obtain ⟨hk2, hkne⟩ := hk
    rw [mem_objKeys_objSet] at hkc
    rcases hkc with hkc | hkc
    · obtain ⟨v, hv⟩ := objGet_isSome_of_mem_keys hk2
      rcases S4 k v hv with h | h
      · exact inv.disjoint k (mem_keys_of_objGet h) hkc
      · exact absurd hkc ((objGet_eq_none_iff_keys _ _).mp (viable_canStep h.1).2)
    · exact hkne hkc
  · -- startMem
    by_cases hsc : startCell = cur.1
    · exact Or.inr ((mem_objKeys_objSet _ _ _ _).mpr (Or.inr hsc))
    · rcases inv.startMem with h | h
      · obtain ⟨n0, hn0⟩ := objGet_isSome_of_mem_keys h
        rcases S2 startCell n0 hn0 with ⟨n2, hn2, _, _⟩
        exact Or.inl (mem_keys_of_objGet (hopBack _ _ hsc hn2))
      · exact Or.inr ((mem_objKeys_objSet _ _ _ _).mpr (Or.inl h))
  · -- startOpen
    intro n h
    obtain ⟨_, h2⟩ := hop _ _ h
    exact hstartopen2 n h2
  · -- startClosed
    intro n h
    rcases hcsplit _ _ h with ⟨hx, hn⟩ | ⟨_, hn⟩
    · subst hn
      exact inv.startOpen cur.2 (by rw [hx]; exact hcurget)
    · exact inv.startClosed n hn
  · -- costs
    intro c n h
    rcases h with h | h
    · obtain ⟨hcne2, h2⟩ := hop _ _ h
      rcases S4 c n h2 with h3 | h3
      · exact inv.costs c n (Or.inl h3)
      · obtain ⟨hmem, hcand⟩ := h3
        subst hcand
        refine ⟨rfl, ?_, fun _ => rfl⟩
        intro hcs
        exfalso
        subst hcs
        have hcandinit := hstartopen2 _ h2
        have h5 := congrArg Node.totalCost hcandinit
        rw [candidateNode_totalCost] at h5
        have h6 : initNode.totalCost = 0 := rfl
        rw [h6] at h5
        omega
    · rcases hcsplit c n h with ⟨hx, hn⟩ | ⟨_, hn⟩
      · subst hx
        subst hn
        exact inv.costs _ _ (Or.inl hcurget)
      · exact inv.costs c n (Or.inr hn)
  · -- parentLink
    intro c n h
    rcases h with h | h
    · obtain ⟨hcne2, h2⟩ := hop _ _ h
      rcases S4 c n h2 with h3 | h3
      · rcases inv.parentLink c n (Or.inl h3) with h4 | ⟨np, hnp, hstep, hmv⟩
        · exact Or.inl h4
        · exact Or.inr ⟨np, hcback _ _ hnp, hstep, hmv⟩
      · obtain ⟨hmem, hcand⟩ := h3
        subst hcand
        refine Or.inr ⟨cur.2, ?_, ?_, ?_⟩
        · rw [candidateNode_parent]
          exact hcself
        · rw [candidateNode_parent]
          exact (viable_canStep hmem).1
        · rw [candidateNode_moveCost]
    · rcases hcsplit c n h with ⟨hx, hn⟩ | ⟨_, hn⟩
      · subst hx
        subst hn
        rcases inv.parentLink _ _ (Or.inl hcurget) with h4 | ⟨np, hnp, hstep, hmv⟩
        · exact Or.inl h4
        · exact Or.inr ⟨np, hcback _ _ hnp, hstep, hmv⟩
      · rcases inv.parentLink c n (Or.inr hn) with h4 | ⟨np, hnp, hstep, hmv⟩
        · exact Or.inl h4
        · exact Or.inr ⟨np, hcback _ _ hnp, hstep, hmv⟩
  · -- closedOptimal
    intro c n h R hroute
    rcases hcsplit c n h with ⟨hx, hn⟩ | ⟨_, hn⟩
    · subst hx
      subst hn
      exact selected_optimal grid fin e rest closedN inv R hroute
    · exact inv.closedOptimal c n hn R hroute
  · -- frontierComplete
    intro p np hget y hstep hyc
    rw [mem_objKeys_objSet] at hyc
    push_neg at hyc
    obtain ⟨hycN, hyne⟩ := hyc
    have hynone : objGet closedN y = none := (objGet_eq_none_iff_keys _ _).mpr hycN
    rcases hcsplit p np hget with ⟨hp, hnp⟩ | ⟨hpne, hnp⟩
    · subst hp
      subst hnp
      have hymem : y ∈ nbs := canStep_viable hstep hynone
      rcases S3 y hymem with ⟨n2, hn2, hle2, hdisj2⟩
      refine ⟨n2, hopBack _ _ hyne hn2, ?_⟩
      rcases hdisj2 with h2 | h2
      · rw [h2, candidateNode_moveCost]
      · have hcosts2 := inv.costs y n2 (Or.inl h2)
        by_cases hys : y = startCell
        · have := inv.startOpen n2 (hys ▸ h2)
          rw [this]
          exact Nat.zero_le _
        · have hdist2 : n2.distCost = getHeuristicMeasure y fin := hcosts2.2.2 hys
          have htot2 : n2.totalCost = n2.moveCost + n2.distCost := hcosts2.1
          rw [candidateNode_totalCost] at hle2
          omega
    · rcases inv.frontierComplete p np hnp y hstep hycN with ⟨ny, hnyget, hnybound⟩
      rcases S2 y ny hnyget with ⟨n2, hn2, hle2, hdisj2⟩
      refine ⟨n2, hopBack _ _ hyne hn2, ?_⟩
      rcases hdisj2 with h2 | h2
      · subst h2
        exact hnybound
      · have hcosts1 := inv.costs y ny (Or.inl hnyget)
        by_cases hys : y = startCell
        · exfalso
          have := inv.startOpen ny (hys ▸ hnyget)
          subst this
          rw [h2, candidateNode_totalCost] at hle2
          simp [initNode] at hle2
        · have hdist1 : ny.distCost = getHeuristicMeasure y fin := hcosts1.2.2 hys
          have htot1 : ny.totalCost = ny.moveCost + ny.distCost := hcosts1.1
          rw [h2, candidateNode_totalCost] at hle2
          rw [h2, candidateNode_moveCost]
          omega
  · -- openKeysGrid
    intro k hk
    rw [mem_objKeys_objDelete] at hk
    obtain ⟨hk2, _⟩ := hk
    obtain ⟨v, hv⟩ := objGet_isSome_of_mem_keys hk2
    rcases S4 k v hv with h | h
    · exact inv.openKeysGrid k (mem_keys_of_objGet h)
    · exact Or.inr (hnbsGrid k h.1)
  · -- closedKeysGrid
    intro k hk
    rw [mem_objKeys_objSet] at hk
    rcases hk with hk | hk
    · exact inv.closedKeysGrid k hk
    · exact hk ▸ inv.openKeysGrid cur.1 hcurkey

/-- What holds of the closed dictionary a successful search returns. -/
structure ClosedPost (grid : Grid) (fin : Cell) (closedF : NodeMap) : Prop where
  nodup : NodupKeys closedF
  startEntry : ∀ n, objGet closedF startCell = some n → n = initNode
  costs : ∀ c n, objGet closedF c = some n →
    n.totalCost = n.moveCost + n.distCost ∧
    (c = startCell → n.distCost = 0) ∧
    (c ≠ startCell → n.distCost = getHeuristicMeasure c fin)
  parentLink : ∀ c n, objGet closedF c = some n →
    (c = startCell ∧ n = initNode) ∨
    (∃ np, objGet closedF n.parent = some np ∧
      canStep grid n.parent c = true ∧ n.moveCost = np.moveCost + 1)
  optimal : ∀ c n, objGet closedF c = some n →
    ∀ R, IsRoute grid startCell c R → n.moveCost + 1 ≤ R.length

theorem closedPost_extend (grid : Grid) (fin : Cell) (e : Cell × Node)
    (rest : NodeMap) (closedN : NodeMap) (inv : LoopInv grid fin (e :: rest) closedN) :
    ClosedPost grid fin
      (objSet closedN (getLowestCostNode e rest).1 (getLowestCostNode e rest).2) ∧
    objGet (objSet closedN (getLowestCostNode e rest).1 (getLowestCostNode e rest).2)
      (getLowestCostNode e rest).1 = some (getLowestCostNode e rest).2 := by
  obtain ⟨before, after, heq, hmin, _⟩ := getLowestCostNode_spec e rest
  set cur := getLowestCostNode e rest with hcurdef
  have hcurmem : cur ∈ e :: rest := by
    rw [heq]
    exact List.mem_append.mpr (Or.inr (List.mem_cons_self _ _))
  have hcurget : objGet (e :: rest) cur.1 = some cur.2 :=
    objGet_eq_some_of_mem inv.openNodup hcurmem
  have hcurkey : cur.1 ∈ objKeys (e :: rest) := mem_keys_of_objGet hcurget
  have hcurnc : cur.1 ∉ objKeys closedN := inv.disjoint cur.1 hcurkey
  have hcself : objGet (objSet closedN cur.1 cur.2) cur.1 = some cur.2 :=
    objGet_objSet_self _ _ _
  have hcback : ∀ x nx, objGet closedN x = some nx →
      objGet (objSet closedN cur.1 cur.2) x = some nx := by
    intro x nx hx
    have hxne : x ≠ cur.1 := by
      intro hc
      exact hcurnc (hc ▸ mem_keys_of_objGet hx)
    rw [objGet_objSet_ne _ _ _ _ hxne]
    exact hx
  have hcsplit : ∀ x nx, objGet (objSet closedN cur.1 cur.2) x = some nx →
      (x = cur.1 ∧ nx = cur.2) ∨ (x ≠ cur.1 ∧ objGet closedN x = some nx) := by
    intro x nx hx
    by_cases hxc : x = cur.1
    · subst hxc
      rw [hcself] at hx
      injection hx with hx
      exact Or.inl ⟨rfl, hx.symm⟩
    · rw [objGet_objSet_ne _ _ _ _ hxc] at hx
      exact Or.inr ⟨hxc, hx⟩
  refine ⟨⟨?_, ?_, ?_, ?_, ?_⟩, hcself⟩
  · exact nodupKeys_objSet _ _ _ inv.closedNodup
  · intro n h
    rcases hcsplit _ _ h with ⟨hx, hn⟩ | ⟨_, hn⟩
    · subst hn
      exact inv.startOpen cur.2 (by rw [hx]; exact hcurget)
    · exact inv.startClosed n hn
  · intro c n h
    rcases hcsplit c n h with ⟨hx, hn⟩ | ⟨_, hn⟩
    · subst hx
      subst hn
      exact inv.costs _ _ (Or.inl hcurget)
    · exact inv.costs c n (Or.inr hn)
  · intro c n h
    rcases hcsplit c n h with ⟨hx, hn⟩ | ⟨_, hn⟩
    · subst hx
      subst hn
      rcases inv.parentLink _ _ (Or.inl hcurget) with h4 | ⟨np, hnp, hstep, hmv⟩
      · exact Or.inl h4
      · exact Or.inr ⟨np, hcback _ _ hnp, hstep, hmv⟩
    · rcases inv.parentLink c n (Or.inr hn) with h4 | ⟨np, hnp, hstep, hmv⟩
      · exact Or.inl h4
      · exact Or.inr ⟨np, hcback _ _ hnp, hstep, hmv⟩
  · intro c n h R hroute
    rcases hcsplit c n h with ⟨hx, hn⟩ | ⟨_, hn⟩
    · subst hx
      subst hn
      exact selected_optimal grid fin e rest closedN inv R hroute
    · exact inv.closedOptimal c n hn R hroute

theorem findPathLoop_found : ∀ (fuel : Nat) (grid : Grid) (fin : Cell)
    (openN closedN cF : NodeMap) (fF : Cell),
    LoopInv grid fin openN closedN →
    (findPathLoop fin fuel grid openN closedN).1 = .found cF fF →
    fF = fin ∧ ClosedPost grid fin cF ∧ ∃ nf, objGet cF fin = some nf := by
  intro fuel
  induction fuel with
  | zero =>
    intro grid fin openN closedN cF fF _ hrun
    simp [findPathLoop] at hrun
  | succ n ih =>
    intro grid fin openN closedN cF fF inv hrun
    cases openN with
    | nil =>
      simp [findPathLoop] at hrun
    | cons e rest =>
      rw [findPathLoop] at hrun
      dsimp only at hrun
      by_cases hfin : (getLowestCostNode e rest).1 = fin
      · rw [if_pos hfin] at hrun
        dsimp only at hrun
        injection hrun with hrun1 hrun2
        obtain ⟨hpost, hself⟩ := closedPost_extend grid fin e rest closedN inv
        subst hrun1
        refine ⟨hrun2.symm, hpost, ⟨(getLowestCostNode e rest).2, ?_⟩⟩
        rw [← hfin]
        exact hself
      · rw [if_neg hfin] at hrun
        exact ih grid fin _ _ cF fF (loopInv_step grid fin e rest closedN inv) hrun

theorem findPathLoop_completes : ∀ (fuel : Nat) (grid : Grid) (fin : Cell)
    (openN closedN : NodeMap),
    LoopInv grid fin openN closedN →
    (((objKeys grid).toFinset ∪ {startCell}) \ (objKeys closedN).toFinset).card
      < fuel →
    (findPathLoop fin fuel grid openN closedN).1 ≠ .outOfFuel := by
  intro fuel
  induction fuel with
  | zero =>
    intro grid fin openN closedN _ hcard
    omega
  | succ n ih =>
    intro grid fin openN closedN inv hcard
    cases openN with
    | nil =>
      rw [findPathLoop]
      intro h
      cases h
    | cons e rest =>
      rw [findPathLoop]
      dsimp only
      by_cases hfin : (getLowestCostNode e rest).1 = fin
      · rw [if_pos hfin]
        intro h
        cases h
      · rw [if_neg hfin]
        obtain ⟨before, after, heq, hmin, _⟩ := getLowestCostNode_spec e rest
        set cur := getLowestCostNode e rest with hcurdef
        have hcurmem : cur ∈ e :: rest := by
          rw [heq]
          exact List.mem_append.mpr (Or.inr (List.mem_cons_self _ _))
        have hcurget : objGet (e :: rest) cur.1 = some cur.2 :=
          objGet_eq_some_of_mem inv.openNodup hcurmem
        have hcurkey : cur.1 ∈ objKeys (e :: rest) := mem_keys_of_objGet hcurget
        have hcurnc : cur.1 ∉ objKeys closedN := inv.disjoint cur.1 hcurkey
        apply ih grid fin _ _ (loopInv_step grid fin e rest closedN inv)
        have hkeys : ∀ x, x ∈ (objKeys (objSet closedN cur.1 cur.2)).toFinset ↔
            x ∈ (objKeys closedN).toFinset ∨ x = cur.1 := by
          intro x
          rw [List.mem_toFinset, mem_objKeys_objSet, List.mem_toFinset]
        have hS : ((objKeys grid).toFinset ∪ {startCell})
              \ (objKeys (objSet closedN cur.1 cur.2)).toFinset
            = (((objKeys grid).toFinset ∪ {startCell})
              \ (objKeys closedN).toFinset).erase cur.1 := by
          ext x
          simp only [Finset.mem_sdiff, Finset.mem_erase, hkeys]
          tauto
        rw [hS]
        have hmemS : cur.1 ∈ ((objKeys grid).toFinset ∪ {startCell})
            \ (objKeys closedN).toFinset := by
          rw [Finset.mem_sdiff]
          constructor
          · rcases inv.openKeysGrid cur.1 hcurkey with h | h
            · exact Finset.mem_union_right _ (by simp [h])
            · exact Finset.mem_union_left _ (List.mem_toFinset.mpr h)
          · intro hx
            exact hcurnc (List.mem_toFinset.mp hx)
        rw [Finset.card_erase_of_mem hmemS]
        have hpos : 0 < (((objKeys grid).toFinset ∪ {startCell})
            \ (objKeys closedN).toFinset).card :=
          Finset.card_pos.mpr ⟨cur.1, hmemS⟩
        omega

/-- Following parent links from any closed entry reconstructs a route from
the start whose move count is exactly the entry's move cost. -/
theorem closedPost_route (grid : Grid) (fin : Cell) (closedF : NodeMap)
    (post : ClosedPost grid fin closedF) :
    ∀ (k : Nat) (c : Cell) (n : Node), objGet closedF c = some n → n.moveCost = k →
      IsRoute grid startCell c ((reconstructPath closedF k c).reverse) ∧
      (reconstructPath closedF k c).length = k + 1 := by
  intro k
  induction k using Nat.strong_induction_on with
  | _ k ih =>
    intro c n hget hmv
    rcases post.parentLink c n hget with ⟨hc, hn⟩ | ⟨np, hnp, hstep, hmvp⟩
    · subst hc
      subst hn
      have hk : k = 0 := by rw [← hmv]; rfl
      subst hk
      exact ⟨route_singleton grid startCell, rfl⟩
    · have hk : k = np.moveCost + 1 := by omega
      have hcs : c ≠ startCell := by
        intro hc
        have hi := post.startEntry n (hc ▸ hget)
        rw [hi] at hmvp
        simp [initNode] at hmvp
      subst hk
      have hih := ih np.moveCost (by omega) n.parent np hnp rfl
      have hrec : reconstructPath closedF (np.moveCost + 1) c
          = c :: reconstructPath closedF np.moveCost n.parent := by
        rw [reconstructPath, if_neg hcs, hget]
      rw [hrec]
      constructor
      · rw [List.reverse_cons]
        exact isRoute_append hih.1 hstep
      · rw [List.length_cons, hih.2]

theorem findPath_found_route (grid : Grid) (gridWidth gridHeight : Int)
    (cF : NodeMap) (fF : Cell)
    (hrun : (findPath grid gridWidth gridHeight).1 = .found cF fF) :
    ∃ R, IsRoute grid startCell (gridWidth - 1, gridHeight - 1) R := by
  obtain ⟨hfin, hpost, nf, hnf⟩ :=
    findPathLoop_found _ grid _ _ _ cF fF (loopInv_init grid _) hrun
  obtain ⟨hroute, _⟩ := closedPost_route grid _ cF hpost nf.moveCost _ nf hnf rfl
  exact ⟨_, hroute⟩

/-- C7 (confirmed): on every grid with no passable route from `(0,0)` to the
goal `(gridWidth − 1, gridHeight − 1)` — passability being the solver's own
wall test: each step enters a present cell through that cell's open facing
wall, which on wall-symmetric grids coincides with the spec's `is_open` —
`findPath` terminates normally with the frontier empty and returns the
not-found signal (`undefined`), never a path and never non-termination. -/
theorem claim_C7 (grid : Grid) (gridWidth gridHeight : Int)
    (hno : ¬ ∃ R, IsRoute grid startCell (gridWidth - 1, gridHeight - 1) R) :
    (findPath grid gridWidth gridHeight).1 = SearchResult.notFound := by
  cases hres : (findPath grid gridWidth gridHeight).1 with
  | found cF fF => exact absurd (findPath_found_route grid _ _ cF fF hres) hno
  | notFound => rfl
  | outOfFuel =>
    exfalso
    unfold findPath at hres
    refine findPathLoop_completes (grid.length + 2) grid _ _ _
      (loopInv_init grid _) ?_ hres
    have h1 : (objKeys ([] : NodeMap)).toFinset = (∅ : Finset Cell) := rfl
    rw [h1, Finset.sdiff_empty]
    have h2 : ((objKeys grid).toFinset ∪ {startCell}).card
        ≤ (objKeys grid).toFinset.card + ({startCell} : Finset Cell).card :=
      Finset.card_union_le _ _
    have h3 : (objKeys grid).toFinset.card ≤ (objKeys grid).length :=
      (objKeys grid).toFinset_card_le
    have h4 : (objKeys grid).length = grid.length := by simp [objKeys]
    have h5 : ({startCell} : Finset Cell).card = 1 := Finset.card_singleton _
    omega

theorem canStep_populateGrid_false (h w : Int) (a b : Cell) :
    canStep (populateGrid h w) a b = false := by
  unfold canStep wallOpen
  rcases ho : objGet (populateGrid h w) b with _ | ws
  · simp
  · have hws : ws = allWalls :=
      ((mem_populateGrid h w (b, ws)).mp (mem_of_objGet_eq_some ho)).1
    subst hws
    simp [allWalls]

theorem no_route_fullGrid :
    ¬ ∃ R, IsRoute (populateGrid 2 2) startCell ((1 : Int), (1 : Int)) R := by
  rintro ⟨R, hhead, hlast, hchain⟩
  cases R with
  | nil => simp at hhead
  | cons a R2 =>
    have ha : a = startCell := by simpa using hhead
    cases R2 with
    | nil =>
      have hb : a = ((1 : Int), (1 : Int)) := by simpa using hlast
      rw [ha] at hb
      exact absurd hb (by decide)
    | cons b R3 =>
      have hstep : canStep (populateGrid 2 2) a b = true :=
        (List.chain'_cons.mp hchain).1
      rw [canStep_populateGrid_false] at hstep
      cases hstep

/-- Witness for C7: the fully-walled 2×2 grid has no route from start to
goal (a fortiori its goal cell has all four walls closed), and `findPath`
returns the not-found signal on it. -/
theorem claim_C7_witness :
    (findPath (populateGrid 2 2) 2 2).1 = SearchResult.notFound := by
  apply claim_C7
  have h : ((2 : Int) - 1, (2 : Int) - 1) = ((1 : Int), (1 : Int)) := by decide
  rw [h]
  exact no_route_fullGrid

/-- C6 (amended): in the closed dictionary a successful `findPath` returns,
every node's total cost is its move cost plus its heuristic cost; every node
except the start node carries as heuristic cost the Manhattan distance from
its cell to the goal `(gridWidth − 1, gridHeight − 1)`; the start node
carries the literal 0 it was initialised with (not its Manhattan
distance). -/
theorem claim_C6_amended (grid : Grid) (gridWidth gridHeight : Int)
    (cF : NodeMap) (fF : Cell)
    (hrun : (findPath grid gridWidth gridHeight).1 = .found cF fF)
    (c : Cell) (n : Node) (hget : objGet cF c = some n) :
    n.totalCost = n.moveCost + n.distCost ∧
    (c = startCell → n.distCost = 0) ∧
    (c ≠ startCell →
      n.distCost = getHeuristicMeasure c (gridWidth - 1, gridHeight - 1)) := by
  obtain ⟨_, hpost, _⟩ :=
    findPathLoop_found _ grid _ _ _ cF fF (loopInv_init grid _) hrun
  exact hpost.costs c n hget

/-- Witness for C6 (amended): the node of cell `(1,0)` in the closed set of
the 2×2 example run. -/
theorem claim_C6_witness :
    ((⟨((0 : Int), (0 : Int)), 1, 1, 2⟩ : Node).totalCost
        = (⟨((0 : Int), (0 : Int)), 1, 1, 2⟩ : Node).moveCost
          + (⟨((0 : Int), (0 : Int)), 1, 1, 2⟩ : Node).distCost) ∧
    (((1 : Int), (0 : Int)) = startCell →
      (⟨((0 : Int), (0 : Int)), 1, 1, 2⟩ : Node).distCost = 0) ∧
    (((1 : Int), (0 : Int)) ≠ startCell →
      (⟨((0 : Int), (0 : Int)), 1, 1, 2⟩ : Node).distCost
        = getHeuristicMeasure ((1 : Int), (0 : Int)) ((2 : Int) - 1, (2 : Int) - 1)) :=
  claim_C6_amended grid8 2 2 closed8 ((2 : Int) - 1, (2 : Int) - 1) (by decide)
    ((1 : Int), (0 : Int)) ⟨((0 : Int), (0 : Int)), 1, 1, 2⟩ (by decide)

/-! ### The spec's `is_open` and its relation to the code's passability -/

theorem wallOpen_eq_true {grid : Grid} {c : Cell} {f : Walls → Bool} :
    wallOpen grid c f = true ↔ ∃ w, objGet grid c = some w ∧ f w = false := by
  unfold wallOpen
  rcases ho : objGet grid c with _ | w
  · simp
  · simp

theorem symGrid_pair_h {grid : Grid} {wa wb : Walls} {a b : Cell}
    (hsym : SymGrid grid) (ha : objGet grid a = some wa)
    (hb : objGet grid b = some wb) (hab : b = (a.1 + 1, a.2)) :
    wa.right = wb.left :=
  (hsym (a, wa) (mem_of_objGet_eq_some ha) (b, wb)
    (mem_of_objGet_eq_some hb)).1 (by simpa using hab)

theorem symGrid_pair_v {grid : Grid} {wa wb : Walls} {a b : Cell}
    (hsym : SymGrid grid) (ha : objGet grid a = some wa)
    (hb : objGet grid b = some wb) (hab : b = (a.1, a.2 + 1)) :
    wa.bottom = wb.top :=
  (hsym (a, wa) (mem_of_objGet_eq_some ha) (b, wb)
    (mem_of_objGet_eq_some hb)).2 (by simpa using hab)

/-- The spec's `is_open(grid, from, direction)` (§4.1), written from the
spec's words as the second definition of passability, for comparison with
the code's `canStep`: movement from `a` towards the 4-adjacent cell `b` is
open iff the wall of `a` itself facing that direction is open and the
neighbouring cell `b` exists in the grid.  (The source has no such
function; this is the claim's reference point.) -/
def specIsOpen (grid : Grid) (a b : Cell) : Bool :=
  ((b == (a.1, a.2 - 1)) && wallOpen grid a (·.top) && (objGet grid b).isSome) ||
  ((b == (a.1, a.2 + 1)) && wallOpen grid a (·.bottom) && (objGet grid b).isSome) ||
  ((b == (a.1 - 1, a.2)) && wallOpen grid a (·.left) && (objGet grid b).isSome) ||
  ((b == (a.1 + 1, a.2)) && wallOpen grid a (·.right) && (objGet grid b).isSome)

theorem canStep_eq_specIsOpen (grid : Grid) (a b : Cell) (hsym : SymGrid grid)
    (ha : objGet grid a ≠ none) : canStep grid a b = specIsOpen grid a b := by
  obtain ⟨wa, hwa⟩ : ∃ wa, objGet grid a = some wa := by
    rcases h : objGet grid a with _ | wa
    · exact absurd h ha
    · exact ⟨wa, rfl⟩
  rcases hb : objGet grid b with _ | wb
  · have h1 : canStep grid a b = false := by
      unfold canStep wallOpen
      simp only [hb]
      simp
    have h2 : specIsOpen grid a b = false := by
      unfold specIsOpen
      simp only [hb]
      simp
    rw [h1, h2]
  · have hiff : canStep grid a b = true ↔ specIsOpen grid a b = true := by
      constructor
      · intro h
        unfold canStep at h
        simp only [Bool.or_eq_true, Bool.and_eq_true, beq_iff_eq] at h
        unfold specIsOpen
        simp only [Bool.or_eq_true, Bool.and_eq_true, beq_iff_eq]
        rcases h with (((⟨hbeq, hw⟩ | ⟨hbeq, hw⟩) | ⟨hbeq, hw⟩) | ⟨hbeq, hw⟩)
        · rcases wallOpen_eq_true.mp hw with ⟨wb2, hwb2, hfw⟩
          rw [hb] at hwb2
          injection hwb2 with hwb2
          subst hwb2
          have hab : a = (b.1, b.2 + 1) := by
            have h1 : b.1 = a.1 := by rw [hbeq]
            have h2 : b.2 = a.2 - 1 := by rw [hbeq]
            exact Prod.ext (by omega) (by omega)
          have hsf : wb.bottom = wa.top := symGrid_pair_v hsym hb hwa hab
          refine Or.inl (Or.inl (Or.inl ⟨⟨hbeq, ?_⟩, ?_⟩))
          · exact wallOpen_eq_true.mpr ⟨wa, hwa, by rw [← hsf]; exact hfw⟩
          · rw [hb]
            rfl
        · rcases wallOpen_eq_true.mp hw with ⟨wb2, hwb2, hfw⟩
          rw [hb] at hwb2
          injection hwb2 with hwb2
          subst hwb2
          have hab : b = (a.1, a.2 + 1) := hbeq
          have hsf : wa.bottom = wb.top := symGrid_pair_v hsym hwa hb hab
          refine Or.inl (Or.inl (Or.inr ⟨⟨hbeq, ?_⟩, ?_⟩))
          · exact wallOpen_eq_true.mpr ⟨wa, hwa, by rw [hsf]; exact hfw⟩
          · rw [hb]
            rfl
        · rcases wallOpen_eq_true.mp hw with ⟨wb2, hwb2, hfw⟩
          rw [hb] at hwb2
          injection hwb2 with hwb2
          subst hwb2
          have hab : a = (b.1 + 1, b.2) := by
            have h1 : b.1 = a.1 - 1 := by rw [hbeq]
            have h2 : b.2 = a.2 := by rw [hbeq]
            exact Prod.ext (by omega) (by omega)
          have hsf : wb.right = wa.left := symGrid_pair_h hsym hb hwa hab
          refine Or.inl (Or.inr ⟨⟨hbeq, ?_⟩, ?_⟩)
          · exact wallOpen_eq_true.mpr ⟨wa, hwa, by rw [← hsf]; exact hfw⟩
          · rw [hb]
            rfl
        · rcases wallOpen_eq_true.mp hw with ⟨wb2, hwb2, hfw⟩
          rw [hb] at hwb2
          injection hwb2 with hwb2
          subst hwb2
          have hab : b = (a.1 + 1, a.2) := hbeq
          have hsf : wa.right = wb.left := symGrid_pair_h hsym hwa hb hab
          refine Or.inr ⟨⟨hbeq, ?_⟩, ?_⟩
          · exact wallOpen_eq_true.mpr ⟨wa, hwa, by rw [hsf]; exact hfw⟩
          · rw [hb]
            rfl
      · intro h
        unfold specIsOpen at h
        simp only [Bool.or_eq_true, Bool.and_eq_true, beq_iff_eq] at h
        unfold canStep
        simp only [Bool.or_eq_true, Bool.and_eq_true, beq_iff_eq]
        rcases h with (((⟨⟨hbeq, hw⟩, _⟩ | ⟨⟨hbeq, hw⟩, _⟩) | ⟨⟨hbeq, hw⟩, _⟩) | ⟨⟨hbeq, hw⟩, _⟩)
        · rcases wallOpen_eq_true.mp hw with ⟨wa2, hwa2, hfw⟩
          rw [hwa] at hwa2
          injection hwa2 with hwa2
          subst hwa2
          have hab : a = (b.1, b.2 + 1) := by
            have h1 : b.1 = a.1 := by rw [hbeq]
            have h2 : b.2 = a.2 - 1 := by rw [hbeq]
            exact Prod.ext (by omega) (by omega)
          have hsf : wb.bottom = wa.top := symGrid_pair_v hsym hb hwa hab
          exact Or.inl (Or.inl (Or.inl ⟨hbeq,
            wallOpen_eq_true.mpr ⟨wb, hb, by rw [hsf]; exact hfw⟩⟩))
        · rcases wallOpen_eq_true.mp hw with ⟨wa2, hwa2, hfw⟩
          rw [hwa] at hwa2
          injection hwa2 with hwa2
          subst hwa2
          have hsf : wa.bottom = wb.top := symGrid_pair_v hsym hwa hb hbeq
          exact Or.inl (Or.inl (Or.inr ⟨hbeq,
            wallOpen_eq_true.mpr ⟨wb, hb, by rw [← hsf]; exact hfw⟩⟩))
        · rcases wallOpen_eq_true.mp hw with ⟨wa2, hwa2, hfw⟩
          rw [hwa] at hwa2
          injection hwa2 with hwa2
          subst hwa2
          have hab : a = (b.1 + 1, b.2) := by
            have h1 : b.1 = a.1 - 1 := by rw [hbeq]
            have h2 : b.2 = a.2 := by rw [hbeq]
            exact Prod.ext (by omega) (by omega)
          have hsf : wb.right = wa.left := symGrid_pair_h hsym hb hwa hab
          exact Or.inl (Or.inr ⟨hbeq,
            wallOpen_eq_true.mpr ⟨wb, hb, by rw [hsf]; exact hfw⟩⟩)
        · rcases wallOpen_eq_true.mp hw with ⟨wa2, hwa2, hfw⟩
          rw [hwa] at hwa2
          injection hwa2 with hwa2
          subst hwa2
          have hsf : wa.right = wb.left := symGrid_pair_h hsym hwa hb hbeq
          exact Or.inr ⟨hbeq,
            wallOpen_eq_true.mpr ⟨wb, hb, by rw [← hsf]; exact hfw⟩⟩
    by_cases hcs : canStep grid a b = true
    · rw [hcs, hiff.mp hcs]
    · have h1 : canStep grid a b = false := by
        revert hcs
        cases canStep grid a b <;> simp
      have h2 : specIsOpen grid a b = false := by
        by_contra hsp
        have hsp2 : specIsOpen grid a b = true := by
          revert hsp
          cases specIsOpen grid a b <;> simp
        exact hcs (hiff.mpr hsp2)
      rw [h1, h2]

/-- C10 (confirmed): the solver decides passability from the NEIGHBOUR's
wall only — a cell is kept by `getViableNeighbours` iff it is present in
the grid, not in the closed set, and its own wall facing the current cell
is open (`canStep` packages exactly that test and never reads the current
cell's walls); on wall-symmetric grids this agrees with the spec's
`is_open` at every present cell; and on a non-symmetric grid the two can
disagree. -/
theorem claim_C10 :
    (∀ (grid : Grid) (closedNodes : NodeMap) (cur b : Cell),
      b ∈ getViableNeighbours grid cur closedNodes ↔
        (canStep grid cur b = true ∧ objGet closedNodes b = none)) ∧
    (∀ (grid : Grid) (a b : Cell), SymGrid grid → objGet grid a ≠ none →
      canStep grid a b = specIsOpen grid a b) ∧
    (∃ (grid : Grid) (a b : Cell), ¬ SymGrid grid ∧
      canStep grid a b = true ∧ specIsOpen grid a b = false) := by
  refine ⟨fun grid closedNodes cur b => mem_getViableNeighbours grid cur closedNodes b,
    canStep_eq_specIsOpen, ?_⟩
  refine ⟨[(((0 : Int), (0 : Int)), allWalls),
           (((1 : Int), (0 : Int)), ⟨true, true, false, true⟩)],
    ((0 : Int), (0 : Int)), ((1 : Int), (0 : Int)), ?_, ?_, ?_⟩
  · decide
  · decide
  · decide

/-- Witness for C10 at concrete inputs: the characterization on the 2×2
example grid, and the symmetric-grid agreement with its hypotheses
discharged. -/
theorem claim_C10_witness :
    (((1 : Int), (0 : Int)) ∈ getViableNeighbours grid8 startCell [] ↔
      (canStep grid8 startCell ((1 : Int), (0 : Int)) = true ∧
        objGet ([] : NodeMap) ((1 : Int), (0 : Int)) = none)) ∧
    canStep grid8 startCell ((1 : Int), (0 : Int))
      = specIsOpen grid8 startCell ((1 : Int), (0 : Int)) :=
  ⟨claim_C10.1 grid8 [] startCell ((1 : Int), (0 : Int)),
   claim_C10.2.1 grid8 startCell ((1 : Int), (0 : Int)) (by decide) (by decide)⟩

/-- A route in the spec's sense: consecutive cells connected by `is_open`
steps. -/
def IsSpecRoute (grid : Grid) (s t : Cell) (R : List Cell) : Prop :=
  R.head? = some s ∧ R.getLast? = some t ∧
    List.Chain' (fun a b => specIsOpen grid a b = true) R

theorem specIsOpen_src_present {grid : Grid} {a b : Cell}
    (h : specIsOpen grid a b = true) : objGet grid a ≠ none := by
  unfold specIsOpen at h
  simp only [Bool.or_eq_true, Bool.and_eq_true] at h
  rcases h with (((⟨⟨_, hw⟩, _⟩ | ⟨⟨_, hw⟩, _⟩) | ⟨⟨_, hw⟩, _⟩) | ⟨⟨_, hw⟩, _⟩) <;>
    (rcases wallOpen_eq_true.mp hw with ⟨w, hw2, _⟩; rw [hw2]; intro hc; cases hc)

theorem chain_canStep_to_spec (grid : Grid) (hsym : SymGrid grid) :
    ∀ (R : List Cell) (s : Cell), R.head? = some s → objGet grid s ≠ none →
      List.Chain' (fun a b => canStep grid a b = true) R →
      List.Chain' (fun a b => specIsOpen grid a b = true) R := by
  intro R
  induction R with
  | nil =>
    intro s _ _ _
    exact List.chain'_nil
  | cons a R2 ih =>
    intro s hhead hpres hchain
    have ha : a = s := by simpa using hhead
    subst ha
    cases R2 with
    | nil => exact List.chain'_singleton _
    | cons b R3 =>
      have hab := (List.chain'_cons.mp hchain).1
      have htail := (List.chain'_cons.mp hchain).2
      have hbpres : objGet grid b ≠ none := by
        obtain ⟨w, hw⟩ := canStep_present hab
        rw [hw]
        intro hc
        cases hc
      refine List.chain'_cons.mpr ⟨?_, ?_⟩
      · rw [← canStep_eq_specIsOpen grid a b hsym hpres]
        exact hab
      · exact ih b rfl hbpres htail

theorem chain_spec_to_canStep (grid : Grid) (hsym : SymGrid grid) :
    ∀ (R : List Cell),
      List.Chain' (fun a b => specIsOpen grid a b = true) R →
      List.Chain' (fun a b => canStep grid a b = true) R := by
  intro R
  induction R with
  | nil =>
    intro _
    exact List.chain'_nil
  | cons a R2 ih =>
    intro hchain
    cases R2 with
    | nil => exact List.chain'_singleton _
    | cons b R3 =>
      have hab := (List.chain'_cons.mp hchain).1
      have hapres : objGet grid a ≠ none := specIsOpen_src_present hab
      refine List.chain'_cons.mpr ⟨?_, ih (List.chain'_cons.mp hchain).2⟩
      rw [canStep_eq_specIsOpen grid a b hsym hapres]
      exact hab

/-- C2 (confirmed): on every wall-symmetric grid containing the start cell
`(0,0)` (the spec's data model makes every grid cell present), whenever
`findPath` returns success, the path obtained by following parent links in
the returned closed set from the goal `(gridWidth − 1, gridHeight − 1)` back
to the start is itself an open-passage route — spec `is_open` steps — and
is shortest in cell count among all open-passage routes from start to
goal. -/
theorem claim_C2 (grid : Grid) (gridWidth gridHeight : Int) (cF : NodeMap)
    (fF : Cell) (hsym : SymGrid grid) (hstart : objGet grid startCell ≠ none)
    (hrun : (findPath grid gridWidth gridHeight).1 = .found cF fF) :
    ∃ nf, objGet cF (gridWidth - 1, gridHeight - 1) = some nf ∧
      IsSpecRoute grid startCell (gridWidth - 1, gridHeight - 1)
        ((reconstructPath cF nf.moveCost (gridWidth - 1, gridHeight - 1)).reverse) ∧
      (reconstructPath cF nf.moveCost (gridWidth - 1, gridHeight - 1)).length
        = nf.moveCost + 1 ∧
      (∀ Q, IsSpecRoute grid startCell (gridWidth - 1, gridHeight - 1) Q →
        (reconstructPath cF nf.moveCost (gridWidth - 1, gridHeight - 1)).length
          ≤ Q.length) := by
  obtain ⟨hfin, hpost, nf, hnf⟩ :=
    findPathLoop_found _ grid _ _ _ cF fF (loopInv_init grid _) hrun
  obtain ⟨hroute, hlen⟩ := closedPost_route grid _ cF hpost nf.moveCost _ nf hnf rfl
  refine ⟨nf, hnf, ?_, hlen, ?_⟩
  · obtain ⟨hh, hl, hc⟩ := hroute
    exact ⟨hh, hl, chain_canStep_to_spec grid hsym _ startCell hh hstart hc⟩
  · intro Q hQ
    obtain ⟨hh, hl, hc⟩ := hQ
    have hQroute : IsRoute grid startCell (gridWidth - 1, gridHeight - 1) Q :=
      ⟨hh, hl, chain_spec_to_canStep grid hsym Q hc⟩
    have hopt := hpost.optimal _ nf hnf Q hQroute
    omega

/-- Witness for C2: the 2×2 example run, hypotheses discharged by
computation. -/
theorem claim_C2_witness :
    ∃ nf, objGet closed8 ((2 : Int) - 1, (2 : Int) - 1) = some nf ∧
      IsSpecRoute grid8 startCell ((2 : Int) - 1, (2 : Int) - 1)
        ((reconstructPath closed8 nf.moveCost ((2 : Int) - 1, (2 : Int) - 1)).reverse) ∧
      (reconstructPath closed8 nf.moveCost ((2 : Int) - 1, (2 : Int) - 1)).length
        = nf.moveCost + 1 ∧
      (∀ Q, IsSpecRoute grid8 startCell ((2 : Int) - 1, (2 : Int) - 1) Q →
        (reconstructPath closed8 nf.moveCost ((2 : Int) - 1, (2 : Int) - 1)).length
          ≤ Q.length) :=
  claim_C2 grid8 2 2 closed8 ((2 : Int) - 1, (2 : Int) - 1)
    (by decide) (by decide) (by decide)
